import Mathlib

/-! # jumanpp: backward path reconstruction and primitive features

A shallow embedding of

* `AnalysisPath::fillIn` (`src/v2/src/core/analysis/analysis_result.cc`), and
* the primitive feature implementations (`src/v2/src/core/impl/feature_impl_prim.h`),

together with the properties proved about them.

Conventions of the embedding:

* a raw pointer `const ConnectionPtr*` is an optional address (`none` is `nullptr`) into the
  lattice-owned memory `Lattice.mem`; dereferencing a null or dangling pointer, indexing an
  array out of range and `at(0)` on an empty array have no defined result and are the fault
  `Fault.undefined`;
* the `while` loop of `fillIn` is run with a fuel; running out of it is the separate fault
  `Fault.outOfFuel`, so that non-termination is never confused with an undefined access;
* debug assertions (`JPP_DCHECK_*`) are compiled out, as in a release build;
* the text of a `Status` message is not modelled, only its kind.
-/

namespace jumanpp

/-! ## Data model of the lattice -/

/-- Modelled from the spec: the declaration of `Score` is not in the sources; the spec calls
`totalScore` a number.  Scores are integers here, compared with the built-in order, which is
the order of the scores as long as none of them is a NaN. -/
abbrev Score := Int

/-- Modelled from the spec: `EntryPtr` is the identity of a dictionary entry occurrence or
one of the two sentinels `BOS`, `EOS` (its declaration is not in the sources). -/
inductive EntryPtr where
  | BOS : EntryPtr
  | EOS : EntryPtr
  | entry (id : Int) : EntryPtr
  deriving DecidableEq, Repr

/-- Modelled from the spec: `ConnectionPtr` is `{ boundary, right, previous }` (its
declaration is not in the sources).  `previous` is a raw pointer: `none` is `nullptr`,
`some a` is the address `a` in the lattice memory. -/
structure ConnectionPtr where
  boundary : Nat
  right : Nat
  previous : Option Nat
  deriving DecidableEq, Repr

/-- Modelled from the spec: a beam entry is `{ totalScore, connection }`; the code reads the
fields `ptr` and `totalScore` of `ConnectionBeamElement`. -/
structure ConnectionBeamElement where
  ptr : ConnectionPtr
  totalScore : Score
  deriving DecidableEq, Repr

/-- Modelled from the spec: a start node of a boundary, with its `EntryPtr` and the beam it
owns. -/
structure StartNode where
  entryPtr : EntryPtr
  beam : List ConnectionBeamElement
  deriving DecidableEq, Repr

/-- Modelled from the spec: the start nodes of a boundary (`LatticeRightBoundary`, the
result of `starts()`; its declaration is not in the sources). -/
structure LatticeRightBoundary where
  nodes : List StartNode
  deriving DecidableEq, Repr

/-- The number of start nodes, `arraySize()`. -/
def LatticeRightBoundary.arraySize (b : LatticeRightBoundary) : Nat :=
  b.nodes.length

/-- The `EntryPtr` of every start node, `entryPtrData()`. -/
def LatticeRightBoundary.entryPtrData (b : LatticeRightBoundary) : List EntryPtr :=
  b.nodes.map StartNode.entryPtr

/-- The beams of the start nodes, one row per node, `beamData()`. -/
def LatticeRightBoundary.beamData (b : LatticeRightBoundary) :
    List (List ConnectionBeamElement) :=
  b.nodes.map StartNode.beam

/-- The element at flat index `i` of a row-major two-dimensional array, `Sliceable::at`. -/
def sliceableAt {α : Type} (rows : List (List α)) (i : Nat) : Option α :=
  rows.flatten[i]?

/-- The row `i` of a two-dimensional array, `Sliceable::row`. -/
def sliceableRow {α : Type} (rows : List (List α)) (i : Nat) : Option (List α) :=
  rows[i]?

/-- Modelled from the spec: a boundary of the lattice; the code only asks it for
`starts()`. -/
structure LatticeBoundary where
  starts : LatticeRightBoundary
  deriving DecidableEq, Repr

/-- Modelled from the spec: the lattice is an ordered sequence of boundaries; `mem` is the
lattice-owned storage that `ConnectionPtr::previous` points into. -/
structure Lattice where
  boundaries : List LatticeBoundary
  mem : List ConnectionPtr
  deriving DecidableEq, Repr

/-- The number of boundaries, `createdBoundaryCount()`. -/
def Lattice.createdBoundaryCount (l : Lattice) : Nat :=
  l.boundaries.length

/-- The boundary with index `i`, `boundary(i)`; no result out of range. -/
def Lattice.boundary (l : Lattice) (i : Nat) : Option LatticeBoundary :=
  l.boundaries[i]?

/-- Dereference of a `const ConnectionPtr*`. -/
def Lattice.deref (l : Lattice) : Option Nat → Option ConnectionPtr
  | none => none
  | some a => l.mem[a]?

/-! ## `AnalysisPath::fillIn` -/

/-- The kind of a `Status`. -/
inductive Status where
  | Ok : Status
  | InvalidState : Status
  deriving DecidableEq, Repr

/-- The two ways a run can have no result. -/
inductive Fault where
  | undefined : Fault
  | outOfFuel : Fault
  deriving DecidableEq, Repr

/-- The fields of `AnalysisPath` that `fillIn` touches. -/
structure AnalysisPath where
  elems : List ConnectionPtr
  offsets : List Nat
  currentChunk : Int
  deriving DecidableEq, Repr

/-- The `for` loop of `fillIn` (lines 56-63) over the entries of the row after the first:
it stops at the first entry scoring strictly below `topItem`, and pushes the predecessor of
every entry before that.  The index `id` of the loop is not modelled: a row has fewer than
`2^31` entries, so the `i32` index does not overflow. -/
def tieScan (l : Lattice) (topItem : ConnectionBeamElement) :
    List ConnectionBeamElement → List ConnectionPtr → Option (List ConnectionPtr)
  | [], elems => some elems
  | nextItem :: rest, elems =>
    if nextItem.totalScore < topItem.totalScore then some elems
    else
      match l.deref nextItem.ptr.previous with
      | none => none
      | some p => tieScan l topItem rest (elems ++ [p])

/-- The body of the `while` loop of `fillIn` (lines 50-65), run with the pointee of
`topPtr`.  The result is the pointee of the new `topPtr` and the updated path.  The new
`topPtr` is dereferenced here: the loop test that follows reads it at once. -/
def walkStep (l : Lattice) (topPtr : ConnectionPtr) (self : AnalysisPath) :
    Option (ConnectionPtr × AnalysisPath) :=
  match l.boundary topPtr.boundary with
  | none => none
  | some bnd =>
    match sliceableRow bnd.starts.beamData topPtr.right with
    | none => none
    | some [] => none
    | some (topItem :: rest) =>
      match l.deref topItem.ptr.previous with
      | none => none
      | some p =>
        match tieScan l topItem rest (self.elems ++ [p]) with
        | none => none
        | some elems =>
          match l.deref topPtr.previous with
          | none => none
          | some next =>
            some (next, { self with
              elems := elems, offsets := self.offsets ++ [elems.length % 2 ^ 32] })

/-- The `while` loop of `fillIn` (line 49).  The last argument counts the iterations made so
far; it is returned with the path. -/
def walkLoop (l : Lattice) :
    Nat → ConnectionPtr → AnalysisPath → Nat → Except Fault (AnalysisPath × Nat)
  | 0, topPtr, self, steps =>
    if topPtr.boundary > 2 then .error .outOfFuel else .ok (self, steps)
  | fuel + 1, topPtr, self, steps =>
    if topPtr.boundary > 2 then
      match walkStep l topPtr self with
      | none => .error .undefined
      | some (next, self') => walkLoop l fuel next self' (steps + 1)
    else .ok (self, steps)

/-- The function `AnalysisPath::fillIn` (lines 24-71), returning the status, the path after
the call and the number of iterations of its loop.  The two `reserve` calls only allocate.
On a lattice without any boundary `bnds - 1` designates no boundary, in the code (where it
wraps around) as here (where it is 0). -/
def AnalysisPath.fillInTraced (fuel : Nat) (l : Lattice) (self : AnalysisPath) :
    Except Fault (Status × AnalysisPath × Nat) :=
  let bnds := l.createdBoundaryCount
  let cleared : AnalysisPath := { self with elems := [], offsets := [] }
  if bnds = 3 then .ok (.Ok, cleared, 0)
  else
    match l.boundary (bnds - 1) with
    | none => .error .undefined
    | some lastOne =>
      let lastStart := lastOne.starts
      if lastStart.arraySize ≠ 1 then .ok (.InvalidState, cleared, 0)
      else
        match lastStart.entryPtrData[0]? with
        | none => .error .undefined
        | some e =>
          if e ≠ EntryPtr.EOS then .ok (.InvalidState, cleared, 0)
          else
            match sliceableAt lastStart.beamData 0 with
            | none => .error .undefined
            | some top =>
              match walkLoop l fuel top.ptr { cleared with offsets := [0] } 0 with
              | .error f => .error f
              | .ok (path, steps) => .ok (.Ok, { path with currentChunk := -1 }, steps)

/-- The function `AnalysisPath::fillIn`: the status and the path after the call. -/
def AnalysisPath.fillIn (fuel : Nat) (l : Lattice) (self : AnalysisPath) :
    Except Fault (Status × AnalysisPath) :=
  match AnalysisPath.fillInTraced fuel l self with
  | .error f => .error f
  | .ok (st, path, _) => .ok (st, path)

/-! ### Conditions on a lattice -/

/-- The final boundary is malformed: it has no start node, or at least two, or its sole
start node is not `EOS`. -/
def MalformedFinal (b : LatticeRightBoundary) : Prop :=
  b.arraySize = 0 ∨ 2 ≤ b.arraySize ∨
    (b.arraySize = 1 ∧ b.entryPtrData[0]? ≠ some EntryPtr.EOS)

instance (b : LatticeRightBoundary) : Decidable (MalformedFinal b) := by
  unfold MalformedFinal; infer_instance

/-- Every connection pointer stored in the lattice: the memory cells and the `ptr` of every
beam entry. -/
def Lattice.allPtrs (l : Lattice) : List ConnectionPtr :=
  l.mem ++ l.boundaries.flatMap fun b =>
    b.starts.nodes.flatMap fun n => n.beam.map ConnectionBeamElement.ptr

/-- The pointer `p` has a valid `previous` whose boundary is strictly smaller. -/
def Lattice.ptrDecreases (l : Lattice) (p : ConnectionPtr) : Prop :=
  match l.deref p.previous with
  | some q => q.boundary < p.boundary
  | none => False

instance (l : Lattice) (p : ConnectionPtr) : Decidable (l.ptrDecreases p) := by
  unfold Lattice.ptrDecreases; split <;> infer_instance

/-- Strictly boundary-decreasing backpointers: every connection pointer of the lattice
beyond boundary 2 has a valid `previous` with a strictly smaller boundary. -/
def Lattice.BackpointersDecrease (l : Lattice) : Prop :=
  ∀ p ∈ l.allPtrs, 2 < p.boundary → l.ptrDecreases p

instance (l : Lattice) : Decidable l.BackpointersDecrease := by
  unfold Lattice.BackpointersDecrease; infer_instance

/-- The final boundary of the lattice exists and is well formed: exactly one start node,
which is `EOS`. -/
def Lattice.WellFormedEos (l : Lattice) : Prop :=
  match l.boundary (l.createdBoundaryCount - 1) with
  | some b => ¬ MalformedFinal b.starts
  | none => False

instance (l : Lattice) : Decidable l.WellFormedEos := by
  unfold Lattice.WellFormedEos; split <;> infer_instance

/-- The pointers the walk can visit from `start`: `start` itself, and the pointee of
`previous` of every visited pointer whose boundary is beyond 2. -/
inductive Reach (l : Lattice) (start : ConnectionPtr) : ConnectionPtr → Prop where
  | refl : Reach l start start
  | step {q r : ConnectionPtr} :
      Reach l start q → 2 < q.boundary → l.deref q.previous = some r → Reach l start r

/-! ## Primitive features -/

/-- Modelled from the spec: the type tag of a dictionary column, `String`, `StringList` or
another one (`spec::ColumnType` is not declared in the sources). -/
inductive ColumnType where
  | String : ColumnType
  | StringList : ColumnType
  | Other : ColumnType
  deriving DecidableEq, Repr

/-- Modelled from the spec: string storage of a column; `unitsAt ptr` is the content stored
at the pointer, as character units. -/
structure StringStorageReader where
  unitsAt : Int → List Nat

/-- Modelled from the spec: position-list storage of a column; `listAt ptr` is the
cumulatively decoded sequence that a traversal started at the pointer yields. -/
structure IntStorageReader where
  listAt : Int → List Int

/-- Modelled from the spec: the descriptor of a dictionary column (`dic::BuiltField` is not
declared in the sources); the code reads `name`, `columnType`, `strings` and `postions`. -/
structure BuiltField where
  name : String
  columnType : ColumnType
  strings : StringStorageReader
  postions : IntStorageReader

/-- Modelled from the spec: the type tag of a synthesized node. -/
inductive ExtraNodeType where
  | Invalid : ExtraNodeType
  | Unknown : ExtraNodeType
  | Alias : ExtraNodeType
  | Special : ExtraNodeType
  deriving DecidableEq, Repr

/-- Modelled from the spec: a synthesized node with its type tag and its precomputed
provided values (`header.type`, `header.unk.providedValues`). -/
structure ExtraNode where
  type : ExtraNodeType
  providedValues : List Int

/-- Modelled from the spec: the extra-node subsystem, with node lookup by `EntryPtr` (no node
is `nullptr`) and the per-field length lookup of synthesized nodes. -/
structure ExtraNodesContext where
  node : EntryPtr → Option ExtraNode
  lengthOf : Nat → Int → Int

/-- The traversal `DicListTraversal`: `trav_` holds the values that the wrapped
`IntListTraversal` has yet to yield; `calls` counts the calls of `next` made on it. -/
structure DicListTraversal where
  trav_ : List Int
  calls : Nat
  deriving DecidableEq, Repr

/-- The call `next(&value)` (line 29): `some v` when it returns true and stores `v`, `none`
when the wrapped reader signals the end. -/
def DicListTraversal.next (t : DicListTraversal) : Option Int × DicListTraversal :=
  match t.trav_ with
  | [] => (none, { t with calls := t.calls + 1 })
  | v :: rest => (some v, { trav_ := rest, calls := t.calls + 1 })

/-- The class `PrimitiveFeatureContext`. -/
structure PrimitiveFeatureContext where
  extraCtx : ExtraNodesContext
  fields : List BuiltField

/-- The method `PrimitiveFeatureContext::traversal` (lines 43-47); no result when
`fields->at(fieldIdx)` is out of range. -/
def PrimitiveFeatureContext.traversal (ctx : PrimitiveFeatureContext) (fieldIdx : Nat)
    (fieldPtr : Int) : Option DicListTraversal :=
  match ctx.fields[fieldIdx]? with
  | none => none
  | some fld => some { trav_ := fld.postions.listAt fieldPtr, calls := 0 }

/-- Modelled from the spec: `contains(matchData, value)` of `util/stl_util.h` (not in the
sources) is membership in the constant set. -/
def contains (matchData : List Int) (value : Int) : Bool :=
  decide (value ∈ matchData)

/-- The implicit conversion of an `i32` value to `u64` on assignment to a feature slot. -/
def i32ToU64 (v : Int) : Nat :=
  (v % 2 ^ 64).toNat

/-- The assignment `features->at(i) = v`; no result when `i` is out of range. -/
def assignAt (features : List Nat) (i : Nat) (v : Nat) : Option (List Nat) :=
  if i < features.length then some (features.set i v) else none

/-- The class `CopyPrimFeatureImpl`. -/
structure CopyPrimFeatureImpl where
  fieldIdx : Nat
  featureIdx : Nat
  deriving DecidableEq, Repr

/-- The method `CopyPrimFeatureImpl::apply` (lines 141-145). -/
def CopyPrimFeatureImpl.apply (self : CopyPrimFeatureImpl) (_ctx : PrimitiveFeatureContext)
    (_entryPtr : EntryPtr) (entry : List Int) (features : List Nat) : Option (List Nat) :=
  match entry[self.fieldIdx]? with
  | none => none
  | some v => assignAt features self.featureIdx (i32ToU64 v)

/-- The class `MatchDicPrimFeatureImpl`. -/
structure MatchDicPrimFeatureImpl where
  fieldIdx : Nat
  featureIdx : Nat
  matchData : List Int
  deriving DecidableEq, Repr

/-- The method `MatchDicPrimFeatureImpl::apply` (lines 203-212). -/
def MatchDicPrimFeatureImpl.apply (self : MatchDicPrimFeatureImpl)
    (_ctx : PrimitiveFeatureContext) (_entryPtr : EntryPtr) (entry : List Int)
    (features : List Nat) : Option (List Nat) :=
  match entry[self.fieldIdx]? with
  | none => none
  | some elem =>
    let result : Int := if contains self.matchData elem then 1 else 0
    assignAt features self.featureIdx (i32ToU64 result)

/-- The class `MatchAnyDicPrimFeatureImpl`. -/
structure MatchAnyDicPrimFeatureImpl where
  fieldIdx : Nat
  featureIdx : Nat
  matchData : List Int
  deriving DecidableEq, Repr

/-- The `while` loop of `MatchAnyDicPrimFeatureImpl::apply` (lines 236-241), at most `fuel`
iterations of it: the value of `result` after the loop and the traversal as the loop leaves
it. -/
def MatchAnyDicPrimFeatureImpl.scanLoop (matchData : List Int) :
    Nat → DicListTraversal → Int × DicListTraversal
  | 0, trav => (0, trav)
  | fuel + 1, trav =>
    match trav.next with
    | (none, trav') => (0, trav')
    | (some value, trav') =>
      if contains matchData value then (1, trav')
      else MatchAnyDicPrimFeatureImpl.scanLoop matchData fuel trav'

/-- The `while` loop of `MatchAnyDicPrimFeatureImpl::apply` (lines 236-241).  Every call of
`next` that returns true consumes one value of the traversal, so the loop makes at most one
iteration more than the traversal has values. -/
def MatchAnyDicPrimFeatureImpl.scan (matchData : List Int) (trav : DicListTraversal) :
    Int × DicListTraversal :=
  MatchAnyDicPrimFeatureImpl.scanLoop matchData (trav.trav_.length + 1) trav

/-- The method `MatchAnyDicPrimFeatureImpl::apply` (lines 229-243), returning the feature
vector after the call and the local traversal as the call leaves it. -/
def MatchAnyDicPrimFeatureImpl.applyTraced (self : MatchAnyDicPrimFeatureImpl)
    (ctx : PrimitiveFeatureContext) (_entryPtr : EntryPtr) (entry : List Int)
    (features : List Nat) : Option (List Nat × DicListTraversal) :=
  match entry[self.fieldIdx]? with
  | none => none
  | some elem =>
    match ctx.traversal self.fieldIdx elem with
    | none => none
    | some trav =>
      match MatchAnyDicPrimFeatureImpl.scan self.matchData trav with
      | (result, trav') =>
        match assignAt features self.featureIdx (i32ToU64 result) with
        | none => none
        | some features' => some (features', trav')

/-- The method `MatchAnyDicPrimFeatureImpl::apply` (lines 229-243). -/
def MatchAnyDicPrimFeatureImpl.apply (self : MatchAnyDicPrimFeatureImpl)
    (ctx : PrimitiveFeatureContext) (entryPtr : EntryPtr) (entry : List Int)
    (features : List Nat) : Option (List Nat) :=
  (self.applyTraced ctx entryPtr entry features).map Prod.fst

/-- The enumeration `LengthFieldSource` (line 36). -/
inductive LengthFieldSource where
  | Invalid : LengthFieldSource
  | Strings : LengthFieldSource
  | Positions : LengthFieldSource
  deriving DecidableEq, Repr

/-- Modelled from the spec: `lengthOf` of the string storage (not in the sources) is the
number of character units of the string stored at the pointer. -/
def StringStorageReader.lengthOf (s : StringStorageReader) (ptr : Int) : Int :=
  (s.unitsAt ptr).length

/-- Modelled from the spec: `lengthOf` of the position-list storage (not in the sources) is
the number of elements of the list stored at the pointer. -/
def IntStorageReader.lengthOf (s : IntStorageReader) (ptr : Int) : Int :=
  (s.listAt ptr).length

/-- The method `PrimitiveFeatureContext::providedFeature` (lines 49-57); no result when
`features[index]` is out of range. -/
def PrimitiveFeatureContext.providedFeature (ctx : PrimitiveFeatureContext)
    (entryPtr : EntryPtr) (index : Nat) : Option Int :=
  match ctx.extraCtx.node entryPtr with
  | none => some 0
  | some node =>
    if node.type ≠ ExtraNodeType.Unknown then some 0
    else node.providedValues[index]?

/-- The method `PrimitiveFeatureContext::lengthOf` (lines 64-77); no result when
`fields->at(fieldNum)` is out of range. -/
def PrimitiveFeatureContext.lengthOf (ctx : PrimitiveFeatureContext) (fieldNum : Nat)
    (fieldPtr : Int) (field : LengthFieldSource) : Option Int :=
  if fieldPtr < 0 then some (ctx.extraCtx.lengthOf fieldNum fieldPtr)
  else
    match ctx.fields[fieldNum]? with
    | none => none
    | some fld =>
      match field with
      | .Positions => some (fld.postions.lengthOf fieldPtr)
      | .Strings => some (fld.strings.lengthOf fieldPtr)
      | .Invalid => some (-1)

/-- The method `PrimitiveFeatureContext::setLengthField` (lines 79-93).  The argument `field`
is the value of `*field` before the call; the result is the status and the value of `*field`
after the call.  No result when `fields->at(fieldNum)` is out of range. -/
def PrimitiveFeatureContext.setLengthField (ctx : PrimitiveFeatureContext) (fieldNum : Nat)
    (field : LengthFieldSource) : Option (Status × LengthFieldSource) :=
  match ctx.fields[fieldNum]? with
  | none => none
  | some fld =>
    if fld.columnType = ColumnType.StringList then some (.Ok, .Positions)
    else if fld.columnType = ColumnType.String then some (.Ok, .Strings)
    else some (.InvalidState, field)

/-- The class `ProvidedPrimFeatureImpl`. -/
structure ProvidedPrimFeatureImpl where
  providedIdx : Nat
  featureIdx : Nat
  deriving DecidableEq, Repr

/-- The method `ProvidedPrimFeatureImpl::apply` (lines 159-163). -/
def ProvidedPrimFeatureImpl.apply (self : ProvidedPrimFeatureImpl)
    (ctx : PrimitiveFeatureContext) (entryPtr : EntryPtr) (_entry : List Int)
    (features : List Nat) : Option (List Nat) :=
  match ctx.providedFeature entryPtr self.providedIdx with
  | none => none
  | some v => assignAt features self.featureIdx (i32ToU64 v)

/-- The class `LengthPrimFeatureImpl`. -/
structure LengthPrimFeatureImpl where
  fieldIdx : Nat
  featureIdx : Nat
  field : LengthFieldSource
  deriving DecidableEq, Repr

/-- The method `LengthPrimFeatureImpl::apply` (lines 179-186). -/
def LengthPrimFeatureImpl.apply (self : LengthPrimFeatureImpl)
    (ctx : PrimitiveFeatureContext) (_entryPtr : EntryPtr) (entry : List Int)
    (features : List Nat) : Option (List Nat) :=
  match entry[self.fieldIdx]? with
  | none => none
  | some fldPtr =>
    match ctx.lengthOf self.fieldIdx fldPtr self.field with
    | none => none
    | some length => assignAt features self.featureIdx (i32ToU64 length)

/-- The five feature variants behind the interface `PrimitiveFeatureImpl`, each wrapped as
`DynamicPrimitiveFeature<Impl>` (lines 102-128). -/
inductive PrimitiveFeatureImpl where
  | copy (impl : CopyPrimFeatureImpl) : PrimitiveFeatureImpl
  | provided (impl : ProvidedPrimFeatureImpl) : PrimitiveFeatureImpl
  | length (impl : LengthPrimFeatureImpl) : PrimitiveFeatureImpl
  | matchDic (impl : MatchDicPrimFeatureImpl) : PrimitiveFeatureImpl
  | matchAnyDic (impl : MatchAnyDicPrimFeatureImpl) : PrimitiveFeatureImpl
  deriving DecidableEq, Repr

/-- The method `DynamicPrimitiveFeature<Impl>::apply` (lines 122-127): the call of the
wrapped implementation. -/
def PrimitiveFeatureImpl.apply (self : PrimitiveFeatureImpl) (ctx : PrimitiveFeatureContext)
    (entryPtr : EntryPtr) (entry : List Int) (features : List Nat) : Option (List Nat) :=
  match self with
  | .copy impl => impl.apply ctx entryPtr entry features
  | .provided impl => impl.apply ctx entryPtr entry features
  | .length impl => impl.apply ctx entryPtr entry features
  | .matchDic impl => impl.apply ctx entryPtr entry features
  | .matchAnyDic impl => impl.apply ctx entryPtr entry features

/-- The slot that a feature variant writes, its member `featureIdx`. -/
def PrimitiveFeatureImpl.featureIdx : PrimitiveFeatureImpl → Nat
  | .copy impl => impl.featureIdx
  | .provided impl => impl.featureIdx
  | .length impl => impl.featureIdx
  | .matchDic impl => impl.featureIdx
  | .matchAnyDic impl => impl.featureIdx

/-- Every index access that `apply` of the variant performs on these arguments is in range:
the entry row at `fieldIdx`, the output vector at `featureIdx`, the columns of the context at
`fieldIdx` where the variant reads one, and the provided values of an `Unknown` extra node at
`providedIdx`. -/
def PrimitiveFeatureImpl.InRange (self : PrimitiveFeatureImpl) (ctx : PrimitiveFeatureContext)
    (entryPtr : EntryPtr) (entry : List Int) (features : List Nat) : Prop :=
  self.featureIdx < features.length ∧
  match self with
  | .copy impl => impl.fieldIdx < entry.length
  | .provided impl =>
    ∀ node, ctx.extraCtx.node entryPtr = some node → node.type = ExtraNodeType.Unknown →
      impl.providedIdx < node.providedValues.length
  | .length impl =>
    impl.fieldIdx < entry.length ∧
      ∀ fldPtr, entry[impl.fieldIdx]? = some fldPtr → 0 ≤ fldPtr →
        impl.fieldIdx < ctx.fields.length
  | .matchDic impl => impl.fieldIdx < entry.length
  | .matchAnyDic impl => impl.fieldIdx < entry.length ∧ impl.fieldIdx < ctx.fields.length

/-! ## Examples -/

/-! ### A small lattice

Five boundaries: two BOS boundaries, a one-character word at boundary 2 with two
alternatives, a word at boundary 3 whose beam scores are `[5, 5, 3]`, and EOS. -/

def exBos : ConnectionPtr := { boundary := 1, right := 0, previous := none }
def exA0 : ConnectionPtr := { boundary := 2, right := 0, previous := some 0 }
def exA1 : ConnectionPtr := { boundary := 2, right := 1, previous := some 0 }
def exB0 : ConnectionPtr := { boundary := 3, right := 0, previous := some 1 }
def exB1 : ConnectionPtr := { boundary := 3, right := 0, previous := some 2 }
def exB2 : ConnectionPtr := { boundary := 3, right := 0, previous := some 0 }
def exEos : ConnectionPtr := { boundary := 4, right := 0, previous := some 3 }

def exRow : List ConnectionBeamElement :=
  [⟨exB0, 5⟩, ⟨exB1, 5⟩, ⟨exB2, 3⟩]

def exLattice : Lattice where
  boundaries :=
    [ ⟨⟨[⟨.BOS, [⟨⟨0, 0, none⟩, 0⟩]⟩]⟩⟩,
      ⟨⟨[⟨.BOS, [⟨exBos, 0⟩]⟩]⟩⟩,
      ⟨⟨[⟨.entry 10, [⟨exA0, 2⟩]⟩, ⟨.entry 11, [⟨exA1, 2⟩]⟩]⟩⟩,
      ⟨⟨[⟨.entry 20, exRow⟩]⟩⟩,
      ⟨⟨[⟨.EOS, [⟨exEos, 5⟩]⟩]⟩⟩ ]
  mem := [exBos, exA0, exA1, exB0]

def exPath : AnalysisPath := { elems := [exBos], offsets := [7], currentChunk := 4 }

/-- A lattice of four boundaries for a one-word input without ties. -/
def exOneWordLattice : Lattice where
  boundaries :=
    [ ⟨⟨[⟨.BOS, [⟨⟨0, 0, none⟩, 0⟩]⟩]⟩⟩,
      ⟨⟨[⟨.BOS, [⟨exBos, 0⟩]⟩]⟩⟩,
      ⟨⟨[⟨.entry 10, [⟨exA0, 2⟩]⟩]⟩⟩,
      ⟨⟨[⟨.EOS, [⟨⟨3, 0, some 1⟩, 2⟩]⟩]⟩⟩ ]
  mem := [exBos, exA0]

/-- A lattice for the empty input: the two BOS boundaries and EOS. -/
def exEmptyLattice : Lattice where
  boundaries :=
    [ ⟨⟨[⟨.BOS, [⟨⟨0, 0, none⟩, 0⟩]⟩]⟩⟩,
      ⟨⟨[⟨.BOS, [⟨exBos, 0⟩]⟩]⟩⟩,
      ⟨⟨[⟨.EOS, [⟨⟨2, 0, some 0⟩, 0⟩]⟩]⟩⟩ ]
  mem := [exBos]

/-- A lattice of three boundaries whose last boundary has no start node. -/
def exNoEosLattice : Lattice where
  boundaries :=
    [ ⟨⟨[⟨.BOS, [⟨⟨0, 0, none⟩, 0⟩]⟩]⟩⟩,
      ⟨⟨[⟨.BOS, [⟨exBos, 0⟩]⟩]⟩⟩,
      ⟨⟨[]⟩⟩ ]
  mem := [exBos]

/-- A final boundary with two start nodes. -/
def exTwoEos : LatticeBoundary :=
  ⟨⟨[⟨.EOS, [⟨⟨3, 0, some 1⟩, 2⟩]⟩, ⟨.EOS, [⟨⟨3, 1, some 1⟩, 2⟩]⟩]⟩⟩

/-- A lattice of four boundaries whose last boundary has two start nodes. -/
def exTwoEosLattice : Lattice where
  boundaries :=
    [ ⟨⟨[⟨.BOS, [⟨⟨0, 0, none⟩, 0⟩]⟩]⟩⟩,
      ⟨⟨[⟨.BOS, [⟨exBos, 0⟩]⟩]⟩⟩,
      ⟨⟨[⟨.entry 10, [⟨exA0, 2⟩]⟩]⟩⟩,
      exTwoEos ]
  mem := [exBos, exA0]

/-- A context with two columns; column 1 is a list column whose list at pointer 4 is
`(10, 3, 7)` and is empty elsewhere. -/
def exCtx : PrimitiveFeatureContext where
  extraCtx := { node := fun _ => none, lengthOf := fun _ _ => 0 }
  fields :=
    [ { name := "surface", columnType := .String,
        strings := ⟨fun _ => [97, 98, 99]⟩, postions := ⟨fun _ => []⟩ },
      { name := "tags", columnType := .StringList,
        strings := ⟨fun _ => []⟩,
        postions := ⟨fun p => if p = 4 then [10, 3, 7] else []⟩ } ]

/-- A context like `exCtx` in which the entry `-1` is a synthesized node of type `Unknown`
with three provided values, the entry `-2` is a synthesized node of type `Alias`, and the
length lookup of synthesized nodes gives 2. -/
def exUnkCtx : PrimitiveFeatureContext where
  extraCtx :=
    { node := fun e =>
        if e = .entry (-1) then some ⟨.Unknown, [11, 22, 33]⟩
        else if e = .entry (-2) then some ⟨.Alias, [44, 55, 66]⟩
        else none,
      lengthOf := fun _ _ => 2 }
  fields := exCtx.fields

/-! ### A lattice whose best path leaves a node through its second beam entry

Six boundaries: two BOS boundaries, a word at boundary 2, two words at boundary 3, a word at
boundary 4 whose beam holds a path through each of them, and EOS, whose best path continues
the second entry of that beam. -/

def exDBos : ConnectionPtr := { boundary := 1, right := 0, previous := none }
def exDA : ConnectionPtr := { boundary := 2, right := 0, previous := some 0 }
def exDB0 : ConnectionPtr := { boundary := 3, right := 0, previous := some 1 }
def exDB1 : ConnectionPtr := { boundary := 3, right := 1, previous := some 1 }
def exDC0 : ConnectionPtr := { boundary := 4, right := 0, previous := some 2 }
def exDC1 : ConnectionPtr := { boundary := 4, right := 0, previous := some 3 }
def exDEos : ConnectionPtr := { boundary := 5, right := 0, previous := some 5 }

def exDRow : List ConnectionBeamElement :=
  [⟨exDC0, 5⟩, ⟨exDC1, 4⟩]

def exDivergeLattice : Lattice where
  boundaries :=
    [ ⟨⟨[⟨.BOS, [⟨⟨0, 0, none⟩, 0⟩]⟩]⟩⟩,
      ⟨⟨[⟨.BOS, [⟨exDBos, 0⟩]⟩]⟩⟩,
      ⟨⟨[⟨.entry 10, [⟨exDA, 1⟩]⟩]⟩⟩,
      ⟨⟨[⟨.entry 20, [⟨exDB0, 3⟩]⟩, ⟨.entry 21, [⟨exDB1, 2⟩]⟩]⟩⟩,
      ⟨⟨[⟨.entry 30, exDRow⟩]⟩⟩,
      ⟨⟨[⟨.EOS, [⟨exDEos, 9⟩]⟩]⟩⟩ ]
  mem := [exDBos, exDA, exDB0, exDB1, exDC0, exDC1]

/-! ### A lattice with a beam row that is not sorted

The lattice `exLattice` with the scores `[5, 7, 3]` in the row of the word at boundary 3. -/

def exUnsortedRow : List ConnectionBeamElement :=
  [⟨exB0, 5⟩, ⟨exB1, 7⟩, ⟨exB2, 3⟩]

def exUnsortedLattice : Lattice where
  boundaries :=
    [ ⟨⟨[⟨.BOS, [⟨⟨0, 0, none⟩, 0⟩]⟩]⟩⟩,
      ⟨⟨[⟨.BOS, [⟨exBos, 0⟩]⟩]⟩⟩,
      ⟨⟨[⟨.entry 10, [⟨exA0, 2⟩]⟩, ⟨.entry 11, [⟨exA1, 2⟩]⟩]⟩⟩,
      ⟨⟨[⟨.entry 20, exUnsortedRow⟩]⟩⟩,
      ⟨⟨[⟨.EOS, [⟨exEos, 5⟩]⟩]⟩⟩ ]
  mem := [exBos, exA0, exA1, exB0]

/-! ## Properties of `fillIn` -/

theorem lt_length_of_getElem?_eq_some {α : Type} (xs : List α) (i : Nat) (v : α)
    (h : xs[i]? = some v) : i < xs.length := by
  by_contra hn
  rw [List.getElem?_eq_none (not_lt.mp hn)] at h
  exact Option.noConfusion h

theorem exists_getElem?_of_lt {α : Type} (xs : List α) (i : Nat) (h : i < xs.length) :
    ∃ v, xs[i]? = some v :=
  ⟨xs[i], List.getElem?_eq_getElem h⟩

theorem fillInTraced_of_count_three (fuel : Nat) (l : Lattice) (self : AnalysisPath)
    (h : l.createdBoundaryCount = 3) :
    AnalysisPath.fillInTraced fuel l self =
      .ok (.Ok, { self with elems := [], offsets := [] }, 0) := by
  simp [AnalysisPath.fillInTraced, h]

/-- C2: on a lattice whose created boundary count is 3, whatever the path held before,
`fillIn` returns `Ok` and leaves `elems` and `offsets` empty. -/
theorem fillIn_empty_input (fuel : Nat) (l : Lattice) (self : AnalysisPath)
    (h : l.createdBoundaryCount = 3) :
    ∃ path, AnalysisPath.fillIn fuel l self = .ok (.Ok, path) ∧
      path.elems = [] ∧ path.offsets = [] := by
  refine ⟨{ self with elems := [], offsets := [] }, ?_, rfl, rfl⟩
  simp [AnalysisPath.fillIn, fillInTraced_of_count_three fuel l self h]

theorem fillIn_empty_input_witness :
    exEmptyLattice.createdBoundaryCount = 3 ∧
    ∃ path, AnalysisPath.fillIn 0 exEmptyLattice exPath = .ok (.Ok, path) ∧
      path.elems = [] ∧ path.offsets = [] :=
  ⟨rfl, fillIn_empty_input 0 exEmptyLattice exPath rfl⟩

/-- C3, as stated, fails: a lattice of three boundaries whose last boundary has no start
node is malformed, and `fillIn` returns `Ok` on it, whatever the fuel. -/
theorem fillIn_malformed_final_counterexample :
    (∃ b, exNoEosLattice.boundary (exNoEosLattice.createdBoundaryCount - 1) = some b ∧
      MalformedFinal b.starts) ∧
    ∀ fuel, AnalysisPath.fillIn fuel exNoEosLattice exPath = .ok (.Ok, ⟨[], [], 4⟩) :=
  ⟨⟨_, rfl, by decide⟩, fun _ => rfl⟩

/-- C3, amended: on a lattice whose boundary count is not 3 and whose final boundary is
malformed (no start node, at least two, or a sole start node that is not `EOS`), `fillIn`
fails with `InvalidState`. -/
theorem fillIn_malformed_final (fuel : Nat) (l : Lattice) (self : AnalysisPath)
    (b : LatticeBoundary) (hne : l.createdBoundaryCount ≠ 3)
    (hb : l.boundary (l.createdBoundaryCount - 1) = some b)
    (hm : MalformedFinal b.starts) :
    ∃ path, AnalysisPath.fillIn fuel l self = .ok (.InvalidState, path) := by
  refine ⟨{ self with elems := [], offsets := [] }, ?_⟩
  rcases hm with h0 | h2 | ⟨h1, he⟩
  · simp [AnalysisPath.fillIn, AnalysisPath.fillInTraced, hne, hb, h0]
  · have : b.starts.arraySize ≠ 1 := by omega
    simp [AnalysisPath.fillIn, AnalysisPath.fillInTraced, hne, hb, this]
  · have hlen : b.starts.entryPtrData.length = 1 := by
      simpa [LatticeRightBoundary.entryPtrData, LatticeRightBoundary.arraySize] using h1
    obtain ⟨e, hes⟩ : ∃ e, b.starts.entryPtrData = [e] := List.length_eq_one.mp hlen
    have hne2 : e ≠ EntryPtr.EOS := by
      intro h; apply he; simp [hes, h]
    simp [AnalysisPath.fillIn, AnalysisPath.fillInTraced, hne, hb, h1, hes, hne2]

theorem fillIn_malformed_final_witness :
    exTwoEosLattice.createdBoundaryCount ≠ 3 ∧
    exTwoEosLattice.boundary (exTwoEosLattice.createdBoundaryCount - 1) = some exTwoEos ∧
    MalformedFinal exTwoEos.starts ∧
    ∃ path, AnalysisPath.fillIn 5 exTwoEosLattice exPath = .ok (.InvalidState, path) :=
  ⟨by decide, rfl, by decide,
    fillIn_malformed_final 5 exTwoEosLattice exPath exTwoEos (by decide) rfl (by decide)⟩

/-! ### The tie scan and one step of the walk -/

theorem tieScan_eq_some (l : Lattice) (topItem : ConnectionBeamElement) :
    ∀ (rest : List ConnectionBeamElement) (acc elems : List ConnectionPtr),
      tieScan l topItem rest acc = some elems →
      ∃ group, elems = acc ++ group ∧
        group.map some =
          (rest.takeWhile fun e => decide (topItem.totalScore ≤ e.totalScore)).map
            fun e => l.deref e.ptr.previous := by
  intro rest
  induction rest with
  | nil =>
    intro acc elems h
    simp only [tieScan, Option.some.injEq] at h
    exact ⟨[], by simp [h]⟩
  | cons nextItem rest ih =>
    intro acc elems h
    simp only [tieScan] at h
    by_cases hlt : nextItem.totalScore < topItem.totalScore
    · simp only [hlt, if_true, Option.some.injEq] at h
      exact ⟨[], by simp [h, List.takeWhile_cons, hlt]⟩
    · simp only [hlt, if_false] at h
      cases hd : l.deref nextItem.ptr.previous with
      | none => simp [hd] at h
      | some p =>
        simp only [hd] at h
        obtain ⟨group, hg, hmap⟩ := ih _ _ h
        refine ⟨p :: group, by simp [hg], ?_⟩
        simp [List.takeWhile_cons, not_lt.mp hlt, hd, hmap]

theorem takeWhile_eq_filter_of_sorted (topItem : ConnectionBeamElement) :
    ∀ rest : List ConnectionBeamElement,
      (topItem :: rest).Pairwise (fun a b => b.totalScore ≤ a.totalScore) →
      (rest.takeWhile fun e => decide (topItem.totalScore ≤ e.totalScore)) =
        rest.filter fun e => decide (e.totalScore = topItem.totalScore) := by
  intro rest
  induction rest with
  | nil => intro _; rfl
  | cons x rest ih =>
    intro hs
    have hx : x.totalScore ≤ topItem.totalScore := by
      have := List.rel_of_pairwise_cons hs (List.mem_cons_self x rest)
      exact this
    have hrest : (topItem :: rest).Pairwise (fun a b => b.totalScore ≤ a.totalScore) := by
      rw [List.pairwise_cons] at hs ⊢
      exact ⟨fun a ha => hs.1 a (List.mem_cons_of_mem _ ha), (List.pairwise_cons.mp hs.2).2⟩
    by_cases hlt : x.totalScore < topItem.totalScore
    · have hne : x.totalScore ≠ topItem.totalScore := ne_of_lt hlt
      have hbelow : ∀ y ∈ rest, y.totalScore ≠ topItem.totalScore := by
        intro y hy
        have hyx : y.totalScore ≤ x.totalScore :=
          List.rel_of_pairwise_cons (List.pairwise_cons.mp hs).2 hy
        exact ne_of_lt (lt_of_le_of_lt hyx hlt)
      have hnil : (rest.filter fun e => decide (e.totalScore = topItem.totalScore)) = [] := by
        rw [List.filter_eq_nil_iff]
        intro y hy
        simpa using hbelow y hy
      simp [List.takeWhile_cons, List.filter_cons, hlt, hne, hnil]
    · have heq : x.totalScore = topItem.totalScore := le_antisymm hx (not_lt.mp hlt)
      simp [List.takeWhile_cons, List.filter_cons, hlt, heq]
      have := ih hrest
      simpa [heq] using this

theorem walkStep_eq_some (l : Lattice) (topPtr next : ConnectionPtr)
    (self self' : AnalysisPath) (h : walkStep l topPtr self = some (next, self')) :
    ∃ bnd topItem rest p elems,
      l.boundary topPtr.boundary = some bnd ∧
      sliceableRow bnd.starts.beamData topPtr.right = some (topItem :: rest) ∧
      l.deref topItem.ptr.previous = some p ∧
      tieScan l topItem rest (self.elems ++ [p]) = some elems ∧
      l.deref topPtr.previous = some next ∧
      self' = { self with
        elems := elems, offsets := self.offsets ++ [elems.length % 2 ^ 32] } := by
  unfold walkStep at h
  split at h
  · simp at h
  · rename_i bnd hb
    split at h
    · simp at h
    · simp at h
    · rename_i topItem rest hrow
      split at h
      · simp at h
      · rename_i p hp
        split at h
        · simp at h
        · rename_i elems hscan
          split at h
          · simp at h
          · rename_i nxt hnext
            simp only [Option.some.injEq, Prod.mk.injEq] at h
            refine ⟨bnd, topItem, rest, p, elems, hb, hrow, hp, hscan, ?_, h.2.symm⟩
            rw [hnext, h.1]


/-- C1: at a backward step of `fillIn` whose visited beam row is sorted by non-increasing
`totalScore`, the group appended to `elems` is exactly the predecessors (`ptr.previous`), in
row order, of the entries of the row whose `totalScore` equals the first entry's, and of no
other entry. -/
theorem walkStep_tie_group (l : Lattice) (topPtr next : ConnectionPtr)
    (self self' : AnalysisPath) (bnd : LatticeBoundary) (row : List ConnectionBeamElement)
    (hb : l.boundary topPtr.boundary = some bnd)
    (hrow : sliceableRow bnd.starts.beamData topPtr.right = some row)
    (hsorted : row.Pairwise (fun a b => b.totalScore ≤ a.totalScore))
    (hstep : walkStep l topPtr self = some (next, self')) :
    ∃ topItem rest group, row = topItem :: rest ∧ self'.elems = self.elems ++ group ∧
      group.map some =
        (row.filter fun e => decide (e.totalScore = topItem.totalScore)).map
          fun e => l.deref e.ptr.previous := by
  obtain ⟨bnd', topItem, rest, p, elems, hb', hrow', hp, hscan, -, hself⟩ :=
    walkStep_eq_some l topPtr next self self' hstep
  rw [hb] at hb'
  cases (Option.some.inj hb')
  rw [hrow] at hrow'
  cases (Option.some.inj hrow')
  obtain ⟨group, hg, hmap⟩ := tieScan_eq_some l topItem rest _ _ hscan
  refine ⟨topItem, rest, p :: group, rfl, ?_, ?_⟩
  · simp [hself, hg]
  · rw [takeWhile_eq_filter_of_sorted topItem rest hsorted] at hmap
    simp [List.filter_cons, hp, hmap]

theorem walkStep_tie_group_witness :
    exLattice.boundary exB0.boundary = some ⟨⟨[⟨.entry 20, exRow⟩]⟩⟩ ∧
    exRow.map ConnectionBeamElement.totalScore = [5, 5, 3] ∧
    walkStep exLattice exB0 ⟨[exB0], [0, 1], 4⟩ =
      some (exA0, ⟨[exB0, exA0, exA1], [0, 1, 3], 4⟩) ∧
    ∃ topItem rest group, exRow = topItem :: rest ∧
      [exB0, exA0, exA1] = [exB0] ++ group ∧
      group.map some =
        (exRow.filter fun e => decide (e.totalScore = topItem.totalScore)).map
          fun e => exLattice.deref e.ptr.previous :=
  ⟨rfl, rfl, rfl,
    walkStep_tie_group exLattice exB0 exA0 ⟨[exB0], [0, 1], 4⟩
      ⟨[exB0, exA0, exA1], [0, 1, 3], 4⟩ ⟨⟨[⟨.entry 20, exRow⟩]⟩⟩ exRow rfl rfl
      (by decide) rfl⟩

/-! ### Counting the steps of the walk -/

theorem walkLoop_counts (l : Lattice) :
    ∀ (fuel : Nat) (topPtr : ConnectionPtr) (self : AnalysisPath) (steps : Nat)
      (path : AnalysisPath) (n : Nat),
      walkLoop l fuel topPtr self steps = .ok (path, n) →
      steps ≤ n ∧ path.offsets.length = self.offsets.length + (n - steps) ∧
        self.elems.length + (n - steps) ≤ path.elems.length ∧
        path.currentChunk = self.currentChunk := by
  intro fuel
  induction fuel with
  | zero =>
    intro topPtr self steps path n h
    simp only [walkLoop] at h
    split at h
    · simp at h
    · simp only [Except.ok.injEq, Prod.mk.injEq] at h
      obtain ⟨rfl, rfl⟩ := h
      simp
  | succ fuel ih =>
    intro topPtr self steps path n h
    simp only [walkLoop] at h
    split at h
    · split at h
      · simp at h
      · rename_i next self' hstep
        obtain ⟨bnd, topItem, rest, p, elems, -, -, -, hscan, -, hself⟩ :=
          walkStep_eq_some l topPtr next self self' hstep
        obtain ⟨group, hg, -⟩ := tieScan_eq_some l topItem rest _ _ hscan
        obtain ⟨h1, h2, h3, h4⟩ := ih next self' (steps + 1) path n h
        have ho : self'.offsets.length = self.offsets.length + 1 := by simp [hself]
        have he : self.elems.length + 1 ≤ self'.elems.length := by simp [hself, hg]
        have hc : self'.currentChunk = self.currentChunk := by simp [hself]
        refine ⟨by omega, by omega, by omega, by rw [h4, hc]⟩
    · simp only [Except.ok.injEq, Prod.mk.injEq] at h
      obtain ⟨rfl, rfl⟩ := h
      simp

theorem fillInTraced_ok (fuel : Nat) (l : Lattice) (self path : AnalysisPath) (n : Nat)
    (h : AnalysisPath.fillInTraced fuel l self = .ok (.Ok, path, n)) :
    (l.createdBoundaryCount = 3 ∧ path = { self with elems := [], offsets := [] } ∧ n = 0) ∨
    (l.createdBoundaryCount ≠ 3 ∧ ∃ (top : ConnectionBeamElement) (walked : AnalysisPath),
      walkLoop l fuel top.ptr { self with elems := [], offsets := [0] } 0 = .ok (walked, n) ∧
      path = { walked with currentChunk := -1 }) := by
  unfold AnalysisPath.fillInTraced at h
  simp only at h
  split at h
  · rename_i h3
    simp only [Except.ok.injEq, Prod.mk.injEq, true_and] at h
    exact Or.inl ⟨h3, h.1.symm, h.2.symm⟩
  · rename_i h3
    right
    refine ⟨h3, ?_⟩
    split at h
    · simp at h
    · split at h
      · simp at h
      · split at h
        · simp at h
        · split at h
          · simp at h
          · split at h
            · simp at h
            · rename_i top _
              split at h
              · simp at h
              · rename_i walked steps hw
                simp only [Except.ok.injEq, Prod.mk.injEq, true_and] at h
                refine ⟨top, walked, ?_, h.1.symm⟩
                rw [hw, h.2]

theorem fillIn_eq_ok (fuel : Nat) (l : Lattice) (self path : AnalysisPath) (st : Status)
    (h : AnalysisPath.fillIn fuel l self = .ok (st, path)) :
    ∃ n, AnalysisPath.fillInTraced fuel l self = .ok (st, path, n) := by
  unfold AnalysisPath.fillIn at h
  split at h
  · simp at h
  · rename_i st' path' n heq
    simp only [Except.ok.injEq, Prod.mk.injEq] at h
    exact ⟨n, by rw [heq, h.1, h.2]⟩


/-- C4, as stated, fails: on a well-formed five-boundary lattice with strictly decreasing
backpointers `fillIn` succeeds after 2 iterations of its loop and `offsets` has 3 entries. -/
theorem fillIn_offsets_length_counterexample :
    exLattice.WellFormedEos ∧ exLattice.BackpointersDecrease ∧
    AnalysisPath.fillInTraced 10 exLattice exPath =
      .ok (.Ok, ⟨[exB0, exA0, exA1], [0, 1, 3], -1⟩, 2) ∧
    ([0, 1, 3] : List Nat).length ≠ 2 :=
  ⟨by decide, by decide, rfl, by decide⟩

/-- C4, amended: after a successful `fillIn`, `offsets` has one entry more than the number
of iterations of the walk loop (the initial offset 0 and one entry per step) when the
boundary count is not 3, and is empty, with no step taken, when it is 3. -/
theorem fillIn_offsets_length (fuel : Nat) (l : Lattice) (self path : AnalysisPath) (n : Nat)
    (h : AnalysisPath.fillInTraced fuel l self = .ok (.Ok, path, n)) :
    path.offsets.length = if l.createdBoundaryCount = 3 then 0 else n + 1 := by
  rcases fillInTraced_ok fuel l self path n h with ⟨h3, hp, -⟩ | ⟨h3, top, walked, hw, hp⟩
  · simp [h3, hp]
  · obtain ⟨-, ho, -, -⟩ := walkLoop_counts l fuel _ _ _ _ _ hw
    simp [h3, hp, ho]
    omega

theorem fillIn_offsets_length_witness :
    AnalysisPath.fillInTraced 10 exLattice exPath =
      .ok (.Ok, ⟨[exB0, exA0, exA1], [0, 1, 3], -1⟩, 2) ∧
    (⟨[exB0, exA0, exA1], [0, 1, 3], -1⟩ : AnalysisPath).offsets.length =
      if exLattice.createdBoundaryCount = 3 then 0 else 2 + 1 :=
  ⟨rfl, fillIn_offsets_length 10 exLattice exPath ⟨[exB0, exA0, exA1], [0, 1, 3], -1⟩ 2 rfl⟩

/-- C5, as stated, fails: on a well-formed one-word lattice with strictly decreasing
backpointers and no tie, `fillIn` succeeds with one element and two offsets. -/
theorem fillIn_elems_ge_offsets_counterexample :
    exOneWordLattice.WellFormedEos ∧ exOneWordLattice.BackpointersDecrease ∧
    AnalysisPath.fillIn 10 exOneWordLattice exPath = .ok (.Ok, ⟨[exA0], [0, 1], -1⟩) ∧
    ¬ (([0, 1] : List Nat).length ≤ [exA0].length) :=
  ⟨by decide, by decide, rfl, by decide⟩

/-- C5, amended: after a successful `fillIn` the number of recorded elements is at least the
number of offsets minus one: `offsets.length ≤ elems.length + 1`. -/
theorem fillIn_elems_ge_offsets (fuel : Nat) (l : Lattice) (self path : AnalysisPath)
    (h : AnalysisPath.fillIn fuel l self = .ok (.Ok, path)) :
    path.offsets.length ≤ path.elems.length + 1 := by
  obtain ⟨n, hn⟩ := fillIn_eq_ok fuel l self path .Ok h
  rcases fillInTraced_ok fuel l self path n hn with ⟨-, hp, -⟩ | ⟨-, top, walked, hw, hp⟩
  · simp [hp]
  · obtain ⟨-, ho, he, -⟩ := walkLoop_counts l fuel _ _ _ _ _ hw
    simp only [hp, ho]
    simp only [List.length_nil, List.length_singleton, Nat.sub_zero] at he ⊢
    omega

theorem fillIn_elems_ge_offsets_witness :
    AnalysisPath.fillIn 10 exOneWordLattice exPath = .ok (.Ok, ⟨[exA0], [0, 1], -1⟩) ∧
    (⟨[exA0], [0, 1], -1⟩ : AnalysisPath).offsets.length ≤
      (⟨[exA0], [0, 1], -1⟩ : AnalysisPath).elems.length + 1 :=
  ⟨rfl, fillIn_elems_ge_offsets 10 exOneWordLattice exPath ⟨[exA0], [0, 1], -1⟩ rfl⟩


/-! ### Termination of the walk -/

theorem reach_of_step {l : Lattice} {start next q : ConnectionPtr}
    (h2 : 2 < start.boundary) (hd : l.deref start.previous = some next)
    (hq : Reach l next q) : Reach l start q := by
  induction hq with
  | refl => exact Reach.step Reach.refl h2 hd
  | step _ hb hr ih => exact Reach.step ih hb hr

theorem walkStep_next (l : Lattice) (topPtr next : ConnectionPtr) (self self' : AnalysisPath)
    (h : walkStep l topPtr self = some (next, self')) :
    l.deref topPtr.previous = some next := by
  obtain ⟨_, _, _, _, _, -, -, -, -, hn, -⟩ := walkStep_eq_some l topPtr next self self' h
  exact hn

theorem walkLoop_terminates_from (l : Lattice) :
    ∀ (fuel : Nat) (topPtr : ConnectionPtr) (self : AnalysisPath) (steps : Nat),
      (∀ q, Reach l topPtr q → 2 < q.boundary →
        ∃ r, l.deref q.previous = some r ∧ r.boundary < q.boundary) →
      topPtr.boundary - 2 ≤ fuel →
      walkLoop l fuel topPtr self steps ≠ .error .outOfFuel ∧
      (∀ path n, walkLoop l fuel topPtr self steps = .ok (path, n) →
        n ≤ steps + (topPtr.boundary - 2)) ∧
      ((∀ q, Reach l topPtr q → 2 < q.boundary → ∀ s, (walkStep l q s).isSome = true) →
        ∃ path n, walkLoop l fuel topPtr self steps = .ok (path, n)) := by
  intro fuel
  induction fuel with
  | zero =>
    intro topPtr self steps _ hfuel
    have hb : ¬ topPtr.boundary > 2 := by omega
    simp only [walkLoop, hb, if_false]
    refine ⟨by simp, ?_, fun _ => ⟨self, steps, rfl⟩⟩
    intro path n h
    simp only [Except.ok.injEq, Prod.mk.injEq] at h
    omega
  | succ fuel ih =>
    intro topPtr self steps hdec hfuel
    by_cases hb : topPtr.boundary > 2
    · simp only [walkLoop, hb, if_true]
      cases hstep : walkStep l topPtr self with
      | none =>
        refine ⟨by simp, by simp, ?_⟩
        intro hdef
        have := hdef topPtr Reach.refl hb self
        simp [hstep] at this
      | some res =>
        obtain ⟨next, self'⟩ := res
        have hnext := walkStep_next l topPtr next self self' hstep
        obtain ⟨r, hr, hlt⟩ := hdec topPtr Reach.refl hb
        rw [hnext] at hr
        cases (Option.some.inj hr)
        have hdec' : ∀ q, Reach l next q → 2 < q.boundary →
            ∃ r, l.deref q.previous = some r ∧ r.boundary < q.boundary :=
          fun q hq => hdec q (reach_of_step hb hnext hq)
        obtain ⟨h1, h2, h3⟩ := ih next self' (steps + 1) hdec' (by omega)
        refine ⟨h1, ?_, ?_⟩
        · intro path n h
          have := h2 path n h
          omega
        · intro hdef
          exact h3 fun q hq => hdef q (reach_of_step hb hnext hq)
    · simp only [walkLoop, hb, if_false]
      refine ⟨by simp, ?_, fun _ => ⟨self, steps, rfl⟩⟩
      intro path n h
      simp only [Except.ok.injEq, Prod.mk.injEq] at h
      omega

theorem exLattice_reach (q : ConnectionPtr) (h : Reach exLattice exEos q) :
    q = exEos ∨ q = exB0 ∨ q = exA0 := by
  induction h with
  | refl => exact Or.inl rfl
  | step _ hb hr ih =>
    rcases ih with rfl | rfl | rfl
    · right; left
      exact (Option.some.inj hr).symm
    · right; right
      exact (Option.some.inj hr).symm
    · exact absurd hb (by decide)

/-- C6: when every connection pointer beyond boundary 2 that the walk can reach from the
starting pointer has a valid `previous` with a strictly smaller boundary, and the starting
pointer's boundary is below the boundary count, the walk of `fillIn` run with the boundary
count as fuel (or more) does not run out of fuel, every result it gives was reached in at
most boundary-count steps, and it does give a result when every read of the visited steps
is defined. -/
theorem walkLoop_terminates (l : Lattice) (start : ConnectionPtr) (self : AnalysisPath)
    (fuel : Nat) (hstart : start.boundary < l.createdBoundaryCount)
    (hdec : ∀ q, Reach l start q → 2 < q.boundary →
      ∃ r, l.deref q.previous = some r ∧ r.boundary < q.boundary)
    (hfuel : l.createdBoundaryCount ≤ fuel) :
    walkLoop l fuel start self 0 ≠ .error .outOfFuel ∧
    (∀ path n, walkLoop l fuel start self 0 = .ok (path, n) → n ≤ l.createdBoundaryCount) ∧
    ((∀ q, Reach l start q → 2 < q.boundary → ∀ s, (walkStep l q s).isSome = true) →
      ∃ path n, walkLoop l fuel start self 0 = .ok (path, n) ∧
        n ≤ l.createdBoundaryCount) := by
  obtain ⟨h1, h2, h3⟩ := walkLoop_terminates_from l fuel start self 0 hdec (by omega)
  have hbound : ∀ path n, walkLoop l fuel start self 0 = .ok (path, n) →
      n ≤ l.createdBoundaryCount := by
    intro path n h
    have := h2 path n h
    omega
  refine ⟨h1, hbound, fun hdef => ?_⟩
  obtain ⟨path, n, h⟩ := h3 hdef
  exact ⟨path, n, h, hbound path n h⟩

theorem walkLoop_terminates_witness :
    exEos.boundary < exLattice.createdBoundaryCount ∧
    sliceableAt (⟨[⟨.EOS, [⟨exEos, 5⟩]⟩]⟩ : LatticeRightBoundary).beamData 0 =
      some ⟨exEos, 5⟩ ∧
    walkLoop exLattice 5 exEos ⟨[], [0], 4⟩ 0 =
      .ok (⟨[exB0, exA0, exA1], [0, 1, 3], 4⟩, 2) ∧
    (walkLoop exLattice 5 exEos ⟨[], [0], 4⟩ 0 ≠ .error .outOfFuel ∧
    (∀ path n, walkLoop exLattice 5 exEos ⟨[], [0], 4⟩ 0 = .ok (path, n) →
      n ≤ exLattice.createdBoundaryCount) ∧
    ((∀ q, Reach exLattice exEos q → 2 < q.boundary →
        ∀ s, (walkStep exLattice q s).isSome = true) →
      ∃ path n, walkLoop exLattice 5 exEos ⟨[], [0], 4⟩ 0 = .ok (path, n) ∧
        n ≤ exLattice.createdBoundaryCount)) :=
  ⟨by decide, rfl, rfl,
    walkLoop_terminates exLattice exEos ⟨[], [0], 4⟩ 5 (by decide)
      (fun q hq hb => by
        rcases exLattice_reach q hq with rfl | rfl | rfl
        · exact ⟨exB0, rfl, by decide⟩
        · exact ⟨exA0, rfl, by decide⟩
        · exact absurd hb (by decide))
      (by decide)⟩


/-! ### Where the walk advances, the cursor and unsorted rows -/

/-- C15 at the failing input: on a lattice with a sorted row, a well-formed EOS boundary and
strictly decreasing backpointers, whose best path leaves the node at boundary 4 through its
second beam entry, `fillIn` succeeds.  Its second step visits the row of that node, whose
first entry is `exDC0` with predecessor `exDB0`: `exDB0` is recorded, and the walk advances
to `exDB1`, the predecessor of the visited pointer `exDC1`, which designates another row.
The recorded sequence is not a chain: the predecessor of its first element is `exDB1`, and
its second element is `exDB0`. -/
theorem fillIn_walk_leaves_recorded_path :
    exDivergeLattice.WellFormedEos ∧ exDivergeLattice.BackpointersDecrease ∧
    exDRow.Pairwise (fun a b => b.totalScore ≤ a.totalScore) ∧
    AnalysisPath.fillIn 10 exDivergeLattice exPath =
      .ok (.Ok, ⟨[exDC1, exDB0, exDA], [0, 1, 2, 3], -1⟩) ∧
    walkStep exDivergeLattice exDEos ⟨[], [0], 4⟩ = some (exDC1, ⟨[exDC1], [0, 1], 4⟩) ∧
    exDivergeLattice.boundary exDC1.boundary = some ⟨⟨[⟨.entry 30, exDRow⟩]⟩⟩ ∧
    sliceableRow (⟨[⟨.entry 30, exDRow⟩]⟩ : LatticeRightBoundary).beamData exDC1.right =
      some exDRow ∧
    exDRow.head? = some ⟨exDC0, 5⟩ ∧
    exDivergeLattice.deref exDC0.previous = some exDB0 ∧
    exDivergeLattice.deref exDC1.previous = some exDB1 ∧
    walkStep exDivergeLattice exDC1 ⟨[exDC1], [0, 1], 4⟩ =
      some (exDB1, ⟨[exDC1, exDB0], [0, 1, 2], 4⟩) ∧
    exDB1 ≠ exDB0 ∧ exDB1.right ≠ exDB0.right :=
  ⟨by decide, by decide, by decide, rfl, rfl, rfl, rfl, rfl, rfl, rfl, rfl, by decide,
    by decide⟩

theorem fillIn_currentChunk (fuel : Nat) (l : Lattice) (self path : AnalysisPath)
    (h : AnalysisPath.fillIn fuel l self = .ok (.Ok, path)) :
    path.currentChunk = if l.createdBoundaryCount = 3 then self.currentChunk else -1 := by
  obtain ⟨n, hn⟩ := fillIn_eq_ok fuel l self path .Ok h
  rcases fillInTraced_ok fuel l self path n hn with ⟨h3, hp, -⟩ | ⟨h3, top, walked, -, hp⟩
  · simp [h3, hp]
  · simp [h3, hp]

/-- C18 at the failing input: on the lattice of the empty input (boundary count 3) `fillIn`
called on a path whose cursor is 4 returns `Ok`, with whatever fuel, and leaves the cursor at
4; it is not -1. -/
theorem fillIn_empty_keeps_currentChunk :
    exEmptyLattice.createdBoundaryCount = 3 ∧ exPath.currentChunk = 4 ∧
    (∀ fuel, AnalysisPath.fillIn fuel exEmptyLattice exPath = .ok (.Ok, ⟨[], [], 4⟩)) ∧
    (⟨[], [], 4⟩ : AnalysisPath).currentChunk ≠ -1 :=
  ⟨rfl, rfl, fun _ => rfl, by decide⟩

/-- C20: for every beam row, sorted or not, a step of `fillIn` records the predecessors of
exactly the longest prefix of the row in which every entry after the first scores not less
than the first: the row splits into the recorded prefix `taken`, which starts with the first
entry and whose other entries all score at least the first entry's score, and the rest
`dropped`, whose first entry, when there is one, scores strictly less. -/
theorem walkStep_longest_prefix (l : Lattice) (topPtr next : ConnectionPtr)
    (self self' : AnalysisPath) (bnd : LatticeBoundary) (row : List ConnectionBeamElement)
    (hb : l.boundary topPtr.boundary = some bnd)
    (hrow : sliceableRow bnd.starts.beamData topPtr.right = some row)
    (hstep : walkStep l topPtr self = some (next, self')) :
    ∃ topItem taken dropped group, row = (topItem :: taken) ++ dropped ∧
      (∀ e ∈ taken, topItem.totalScore ≤ e.totalScore) ∧
      (∀ d, dropped.head? = some d → d.totalScore < topItem.totalScore) ∧
      self'.elems = self.elems ++ group ∧
      group.map some = (topItem :: taken).map fun e => l.deref e.ptr.previous := by
  obtain ⟨bnd', topItem, rest, p, elems, hb', hrow', hp, hscan, -, hself⟩ :=
    walkStep_eq_some l topPtr next self self' hstep
  rw [hb] at hb'
  cases (Option.some.inj hb')
  rw [hrow] at hrow'
  cases (Option.some.inj hrow')
  obtain ⟨group, hg, hmap⟩ := tieScan_eq_some l topItem rest _ _ hscan
  refine ⟨topItem, rest.takeWhile fun e => decide (topItem.totalScore ≤ e.totalScore),
    rest.dropWhile fun e => decide (topItem.totalScore ≤ e.totalScore), p :: group,
    by simp, ?_, ?_, by simp [hself, hg], by simp [hp, hmap]⟩
  · intro e he
    simpa using List.mem_takeWhile_imp he
  · intro d hd
    have := List.head?_dropWhile_not
      (fun e : ConnectionBeamElement => decide (topItem.totalScore ≤ e.totalScore)) rest
    rw [hd] at this
    simpa using this

theorem walkStep_longest_prefix_witness :
    exUnsortedLattice.boundary exB0.boundary = some ⟨⟨[⟨.entry 20, exUnsortedRow⟩]⟩⟩ ∧
    exUnsortedRow.map ConnectionBeamElement.totalScore = [5, 7, 3] ∧
    walkStep exUnsortedLattice exB0 ⟨[exB0], [0, 1], 4⟩ =
      some (exA0, ⟨[exB0, exA0, exA1], [0, 1, 3], 4⟩) ∧
    ∃ topItem taken dropped group, exUnsortedRow = (topItem :: taken) ++ dropped ∧
      (∀ e ∈ taken, topItem.totalScore ≤ e.totalScore) ∧
      (∀ d, dropped.head? = some d → d.totalScore < topItem.totalScore) ∧
      [exB0, exA0, exA1] = [exB0] ++ group ∧
      group.map some = (topItem :: taken).map fun e => exUnsortedLattice.deref e.ptr.previous :=
  ⟨rfl, rfl, rfl,
    walkStep_longest_prefix exUnsortedLattice exB0 exA0 ⟨[exB0], [0, 1], 4⟩
      ⟨[exB0, exA0, exA1], [0, 1, 3], 4⟩ ⟨⟨[⟨.entry 20, exUnsortedRow⟩]⟩⟩
      exUnsortedRow rfl rfl rfl⟩

/-! ### Failure of `fillIn` -/

theorem exists_last_boundary (l : Lattice) (h : 3 < l.createdBoundaryCount) :
    ∃ b, l.boundary (l.createdBoundaryCount - 1) = some b := by
  unfold Lattice.boundary Lattice.createdBoundaryCount at *
  exact exists_getElem?_of_lt l.boundaries _ (by omega)

theorem fillInTraced_cases (fuel : Nat) (l : Lattice) (self : AnalysisPath)
    (b : LatticeBoundary) (hne : l.createdBoundaryCount ≠ 3)
    (hb : l.boundary (l.createdBoundaryCount - 1) = some b) :
    (b.starts.arraySize ≠ 1 ∧
      AnalysisPath.fillInTraced fuel l self =
        .ok (.InvalidState, { self with elems := [], offsets := [] }, 0)) ∨
    (b.starts.arraySize = 1 ∧ ∃ e, b.starts.entryPtrData[0]? = some e ∧
      ((e ≠ EntryPtr.EOS ∧
        AnalysisPath.fillInTraced fuel l self =
          .ok (.InvalidState, { self with elems := [], offsets := [] }, 0)) ∨
      (e = EntryPtr.EOS ∧
        AnalysisPath.fillInTraced fuel l self =
          match sliceableAt b.starts.beamData 0 with
          | none => .error .undefined
          | some top =>
            match walkLoop l fuel top.ptr { self with elems := [], offsets := [0] } 0 with
            | .error f => .error f
            | .ok (path, steps) => .ok (.Ok, { path with currentChunk := -1 }, steps)))) := by
  by_cases h1 : b.starts.arraySize = 1
  · right
    have hlen : b.starts.entryPtrData.length = 1 := by
      simpa [LatticeRightBoundary.entryPtrData, LatticeRightBoundary.arraySize] using h1
    obtain ⟨e, hes⟩ : ∃ e, b.starts.entryPtrData = [e] := List.length_eq_one.mp hlen
    refine ⟨h1, e, by simp [hes], ?_⟩
    by_cases he : e = EntryPtr.EOS
    · right
      refine ⟨he, ?_⟩
      simp only [AnalysisPath.fillInTraced, hne, hb, h1, hes, he]
      simp
    · left
      refine ⟨he, ?_⟩
      simp [AnalysisPath.fillInTraced, hne, hb, h1, hes, he]
  · left
    refine ⟨h1, ?_⟩
    simp [AnalysisPath.fillInTraced, hne, hb, h1]

theorem fillInTraced_walk_ne_invalid (fuel : Nat) (l : Lattice) (self : AnalysisPath)
    (b : LatticeBoundary) (path : AnalysisPath) (n : Nat)
    (h : (match sliceableAt b.starts.beamData 0 with
          | none => (.error .undefined : Except Fault (Status × AnalysisPath × Nat))
          | some top =>
            match walkLoop l fuel top.ptr { self with elems := [], offsets := [0] } 0 with
            | .error f => .error f
            | .ok (path, steps) => .ok (.Ok, { path with currentChunk := -1 }, steps)) =
      .ok (.InvalidState, path, n)) : False := by
  split at h
  · simp at h
  · split at h
    · simp at h
    · simp at h

/-- C16: on a lattice with more than 3 boundaries, `fillIn` fails with `InvalidState` exactly
when the last boundary's start-node count is not 1 or its first start node's `EntryPtr` is
not `EOS`; whenever it fails, `elems` and `offsets` are both empty, whatever the path held
before; and when the last boundary is well formed, the backpointers reached from its beam
entry strictly decrease and every read of the walk is defined, `fillIn` run with the boundary
count as fuel (or more) returns `Ok`. -/
theorem fillIn_invalid_iff (fuel : Nat) (l : Lattice) (self : AnalysisPath)
    (h3 : 3 < l.createdBoundaryCount) :
    ∃ b, l.boundary (l.createdBoundaryCount - 1) = some b ∧
      ((∃ path, AnalysisPath.fillIn fuel l self = .ok (.InvalidState, path)) ↔
        (b.starts.arraySize ≠ 1 ∨ b.starts.entryPtrData[0]? ≠ some EntryPtr.EOS)) ∧
      (∀ path, AnalysisPath.fillIn fuel l self = .ok (.InvalidState, path) →
        path.elems = [] ∧ path.offsets = []) ∧
      (l.createdBoundaryCount ≤ fuel →
        (∃ top, sliceableAt b.starts.beamData 0 = some top ∧
          top.ptr.boundary < l.createdBoundaryCount ∧
          ∀ q, Reach l top.ptr q → 2 < q.boundary →
            (∃ r, l.deref q.previous = some r ∧ r.boundary < q.boundary) ∧
            ∀ s, (walkStep l q s).isSome = true) →
        ¬ (b.starts.arraySize ≠ 1 ∨ b.starts.entryPtrData[0]? ≠ some EntryPtr.EOS) →
        ∃ path, AnalysisPath.fillIn fuel l self = .ok (.Ok, path)) := by
  obtain ⟨b, hb⟩ := exists_last_boundary l h3
  have hne : l.createdBoundaryCount ≠ 3 := by omega
  refine ⟨b, hb, ?_⟩
  rcases fillInTraced_cases fuel l self b hne hb with
    ⟨h1, ht⟩ | ⟨h1, e, he, ⟨hnot, ht⟩ | ⟨heq, ht⟩⟩
  · have hfill : AnalysisPath.fillIn fuel l self =
        .ok (.InvalidState, { self with elems := [], offsets := [] }) := by
      simp [AnalysisPath.fillIn, ht]
    refine ⟨⟨fun _ => Or.inl h1, fun _ => ⟨_, hfill⟩⟩, ?_, ?_⟩
    · intro path hp
      rw [hfill] at hp
      simp only [Except.ok.injEq, Prod.mk.injEq, true_and] at hp
      rw [← hp]
      exact ⟨rfl, rfl⟩
    · intro _ _ hwell
      exact absurd (Or.inl h1) hwell
  · have hfill : AnalysisPath.fillIn fuel l self =
        .ok (.InvalidState, { self with elems := [], offsets := [] }) := by
      simp [AnalysisPath.fillIn, ht]
    have hcond : b.starts.entryPtrData[0]? ≠ some EntryPtr.EOS := by
      rw [he]
      intro h
      exact hnot (Option.some.inj h)
    refine ⟨⟨fun _ => Or.inr hcond, fun _ => ⟨_, hfill⟩⟩, ?_, ?_⟩
    · intro path hp
      rw [hfill] at hp
      simp only [Except.ok.injEq, Prod.mk.injEq, true_and] at hp
      rw [← hp]
      exact ⟨rfl, rfl⟩
    · intro _ _ hwell
      exact absurd (Or.inr hcond) hwell
  · have hnever : ∀ path, AnalysisPath.fillIn fuel l self ≠ .ok (.InvalidState, path) := by
      intro path hp
      obtain ⟨n, hn⟩ := fillIn_eq_ok fuel l self path .InvalidState hp
      rw [ht] at hn
      exact fillInTraced_walk_ne_invalid fuel l self b path n hn
    refine ⟨⟨fun ⟨path, hp⟩ => absurd hp (hnever path), ?_⟩,
      fun path hp => absurd hp (hnever path), ?_⟩
    · rintro (hc | hc)
      · exact absurd h1 hc
      · rw [he, heq] at hc
        exact absurd rfl hc
    · rintro hfuel ⟨top, htop, hstart, hchain⟩ -
      obtain ⟨-, -, hres⟩ := walkLoop_terminates_from l fuel top.ptr
        { self with elems := [], offsets := [0] } 0 (fun q hq h2 => (hchain q hq h2).1)
        (by omega)
      obtain ⟨walked, n, hw⟩ := hres fun q hq h2 => (hchain q hq h2).2
      refine ⟨{ walked with currentChunk := -1 }, ?_⟩
      simp [AnalysisPath.fillIn, ht, htop, hw]

theorem fillIn_invalid_iff_witness :
    3 < exTwoEosLattice.createdBoundaryCount ∧
    AnalysisPath.fillIn 5 exTwoEosLattice exPath = .ok (.InvalidState, ⟨[], [], 4⟩) ∧
    AnalysisPath.fillIn 5 exLattice exPath =
      .ok (.Ok, ⟨[exB0, exA0, exA1], [0, 1, 3], -1⟩) ∧
    ∃ b, exTwoEosLattice.boundary (exTwoEosLattice.createdBoundaryCount - 1) = some b ∧
      ((∃ path, AnalysisPath.fillIn 5 exTwoEosLattice exPath = .ok (.InvalidState, path)) ↔
        (b.starts.arraySize ≠ 1 ∨ b.starts.entryPtrData[0]? ≠ some EntryPtr.EOS)) ∧
      (∀ path, AnalysisPath.fillIn 5 exTwoEosLattice exPath = .ok (.InvalidState, path) →
        path.elems = [] ∧ path.offsets = []) ∧
      (exTwoEosLattice.createdBoundaryCount ≤ 5 →
        (∃ top, sliceableAt b.starts.beamData 0 = some top ∧
          top.ptr.boundary < exTwoEosLattice.createdBoundaryCount ∧
          ∀ q, Reach exTwoEosLattice top.ptr q → 2 < q.boundary →
            (∃ r, exTwoEosLattice.deref q.previous = some r ∧ r.boundary < q.boundary) ∧
            ∀ s, (walkStep exTwoEosLattice q s).isSome = true) →
        ¬ (b.starts.arraySize ≠ 1 ∨ b.starts.entryPtrData[0]? ≠ some EntryPtr.EOS) →
        ∃ path, AnalysisPath.fillIn 5 exTwoEosLattice exPath = .ok (.Ok, path)) :=
  ⟨by decide, rfl, rfl, fillIn_invalid_iff 5 exTwoEosLattice exPath (by decide)⟩


/-! ### The offsets after a successful `fillIn` -/

theorem walkStep_effect (l : Lattice) (topPtr next : ConnectionPtr)
    (self self' : AnalysisPath) (h : walkStep l topPtr self = some (next, self')) :
    (∃ p group, self'.elems = self.elems ++ p :: group) ∧
    self'.offsets = self.offsets ++ [self'.elems.length % 2 ^ 32] := by
  obtain ⟨bnd, topItem, rest, p, elems, -, -, -, hscan, -, hself⟩ :=
    walkStep_eq_some l topPtr next self self' h
  obtain ⟨group, hg, -⟩ := tieScan_eq_some l topItem rest _ _ hscan
  refine ⟨⟨p, group, by simp [hself, hg]⟩, by simp [hself]⟩

theorem walkLoop_offsets (l : Lattice) :
    ∀ (fuel : Nat) (topPtr : ConnectionPtr) (self : AnalysisPath) (steps : Nat)
      (path : AnalysisPath) (n : Nat),
      walkLoop l fuel topPtr self steps = .ok (path, n) →
      (self.offsets.head? = some 0 → path.offsets.head? = some 0) ∧
      (self.offsets.getLast? = some (self.elems.length % 2 ^ 32) →
        path.offsets.getLast? = some (path.elems.length % 2 ^ 32)) ∧
      (path.elems.length < 2 ^ 32 → self.offsets.Pairwise (· < ·) →
        (∀ a ∈ self.offsets, a ≤ self.elems.length) → path.offsets.Pairwise (· < ·)) := by
  intro fuel
  induction fuel with
  | zero =>
    intro topPtr self steps path n h
    simp only [walkLoop] at h
    split at h
    · simp at h
    · simp only [Except.ok.injEq, Prod.mk.injEq] at h
      obtain ⟨rfl, rfl⟩ := h
      exact ⟨id, id, fun _ hp _ => hp⟩
  | succ fuel ih =>
    intro topPtr self steps path n h
    simp only [walkLoop] at h
    split at h
    · split at h
      · simp at h
      · rename_i next self' hstep
        obtain ⟨⟨p, group, he⟩, ho⟩ := walkStep_effect l topPtr next self self' hstep
        obtain ⟨ih1, ih2, ih3⟩ := ih next self' (steps + 1) path n h
        obtain ⟨-, -, hmono, -⟩ := walkLoop_counts l fuel next self' (steps + 1) path n h
        have hgrow : self.elems.length < self'.elems.length := by
          rw [he]; simp
        refine ⟨?_, ?_, ?_⟩
        · intro hhead
          apply ih1
          rw [ho]
          cases hoff : self.offsets with
          | nil => rw [hoff] at hhead; simp at hhead
          | cons a rest => rw [hoff] at hhead; simpa using hhead
        · intro _
          apply ih2
          rw [ho]
          simp
        · intro hsize hpair hle
          have hlen' : self'.elems.length % 2 ^ 32 = self'.elems.length :=
            Nat.mod_eq_of_lt (by omega)
          apply ih3 hsize
          · rw [ho, hlen', List.pairwise_append]
            refine ⟨hpair, by simp, ?_⟩
            intro a ha b hb
            rw [List.mem_singleton] at hb
            have := hle a ha
            omega
          · intro a ha
            rw [ho, hlen', List.mem_append, List.mem_singleton] at ha
            rcases ha with ha | ha
            · have := hle a ha
              omega
            · omega
    · simp only [Except.ok.injEq, Prod.mk.injEq] at h
      obtain ⟨rfl, rfl⟩ := h
      exact ⟨id, id, fun _ hp _ => hp⟩

/-- C17: after a successful `fillIn` on a lattice whose boundary count is not 3 (so on every
non-empty input), `offsets` starts with 0 and its last element is the `u32` value of
`elems.length`; when `elems.length` fits in a `u32`, `offsets` is strictly increasing and its
last element equals `elems.length`. -/
theorem fillIn_offsets_increasing (fuel : Nat) (l : Lattice) (self path : AnalysisPath)
    (h : AnalysisPath.fillIn fuel l self = .ok (.Ok, path))
    (hne : l.createdBoundaryCount ≠ 3) :
    path.offsets.head? = some 0 ∧
    path.offsets.getLast? = some (path.elems.length % 2 ^ 32) ∧
    (path.elems.length < 2 ^ 32 →
      path.offsets.Pairwise (· < ·) ∧ path.offsets.getLast? = some path.elems.length) := by
  obtain ⟨n, hn⟩ := fillIn_eq_ok fuel l self path .Ok h
  rcases fillInTraced_ok fuel l self path n hn with ⟨h3, -, -⟩ | ⟨-, top, walked, hw, hp⟩
  · exact absurd h3 hne
  · obtain ⟨h1, h2, h3⟩ := walkLoop_offsets l fuel _ _ _ _ _ hw
    have hhead := h1 rfl
    have hlast := h2 rfl
    have he : path.elems = walked.elems := by rw [hp]
    have ho : path.offsets = walked.offsets := by rw [hp]
    rw [he, ho]
    refine ⟨hhead, hlast, fun hsize => ⟨?_, ?_⟩⟩
    · exact h3 hsize (by simp) (by simp)
    · rw [hlast, Nat.mod_eq_of_lt hsize]

theorem fillIn_offsets_increasing_witness :
    AnalysisPath.fillIn 10 exLattice exPath =
      .ok (.Ok, ⟨[exB0, exA0, exA1], [0, 1, 3], -1⟩) ∧
    exLattice.createdBoundaryCount ≠ 3 ∧
    (([0, 1, 3] : List Nat).head? = some 0 ∧
    ([0, 1, 3] : List Nat).getLast? = some ([exB0, exA0, exA1].length % 2 ^ 32) ∧
    ([exB0, exA0, exA1].length < 2 ^ 32 →
      ([0, 1, 3] : List Nat).Pairwise (· < ·) ∧
        ([0, 1, 3] : List Nat).getLast? = some [exB0, exA0, exA1].length)) :=
  ⟨rfl, by decide,
    fillIn_offsets_increasing 10 exLattice exPath ⟨[exB0, exA0, exA1], [0, 1, 3], -1⟩ rfl
      (by decide)⟩


/-! ## Properties of the primitive features -/

theorem scanLoop_no_match (matchData : List Int) :
    ∀ (vals : List Int) (fuel calls : Nat), vals.length < fuel →
      (∀ x ∈ vals, x ∉ matchData) →
      MatchAnyDicPrimFeatureImpl.scanLoop matchData fuel ⟨vals, calls⟩ =
        (0, ⟨[], calls + vals.length + 1⟩) := by
  intro vals
  induction vals with
  | nil =>
    intro fuel calls hfuel _
    cases fuel with
    | zero => simp at hfuel
    | succ fuel => simp [MatchAnyDicPrimFeatureImpl.scanLoop, DicListTraversal.next]
  | cons v rest ih =>
    intro fuel calls hfuel hno
    cases fuel with
    | zero => simp at hfuel
    | succ fuel =>
      have hv : v ∉ matchData := hno v (List.mem_cons_self v rest)
      have hrest : ∀ x ∈ rest, x ∉ matchData :=
        fun x hx => hno x (List.mem_cons_of_mem v hx)
      have hlen : rest.length < fuel := by simpa using hfuel
      simp only [MatchAnyDicPrimFeatureImpl.scanLoop, DicListTraversal.next, contains, hv,
        decide_False, Bool.false_eq_true, if_false]
      rw [ih fuel (calls + 1) hlen hrest]
      simp only [List.length_cons, Prod.mk.injEq, DicListTraversal.mk.injEq, true_and]
      omega

theorem scanLoop_first_match (matchData : List Int) (v : Int) (post : List Int)
    (hv : v ∈ matchData) :
    ∀ (pre : List Int) (fuel calls : Nat), pre.length < fuel →
      (∀ x ∈ pre, x ∉ matchData) →
      MatchAnyDicPrimFeatureImpl.scanLoop matchData fuel ⟨pre ++ v :: post, calls⟩ =
        (1, ⟨post, calls + pre.length + 1⟩) := by
  intro pre
  induction pre with
  | nil =>
    intro fuel calls hfuel _
    cases fuel with
    | zero => simp at hfuel
    | succ fuel =>
      simp [MatchAnyDicPrimFeatureImpl.scanLoop, DicListTraversal.next, contains, hv]
  | cons x rest ih =>
    intro fuel calls hfuel hno
    cases fuel with
    | zero => simp at hfuel
    | succ fuel =>
      have hx : x ∉ matchData := hno x (List.mem_cons_self x rest)
      have hrest : ∀ y ∈ rest, y ∉ matchData :=
        fun y hy => hno y (List.mem_cons_of_mem x hy)
      have hlen : rest.length < fuel := by simpa using hfuel
      simp only [List.cons_append, MatchAnyDicPrimFeatureImpl.scanLoop, DicListTraversal.next,
        contains, hx, decide_False, Bool.false_eq_true, if_false]
      rw [ih fuel (calls + 1) hlen hrest]
      simp only [List.length_cons, Prod.mk.injEq, DicListTraversal.mk.injEq, true_and]
      omega

theorem exists_first_match (matchData : List Int) :
    ∀ vals : List Int, (∃ v ∈ vals, v ∈ matchData) →
      ∃ pre v post, vals = pre ++ v :: post ∧ v ∈ matchData ∧
        ∀ x ∈ pre, x ∉ matchData := by
  intro vals
  induction vals with
  | nil => intro h; simp at h
  | cons a rest ih =>
    intro h
    by_cases ha : a ∈ matchData
    · exact ⟨[], a, rest, rfl, ha, by simp⟩
    · obtain ⟨v, hv, hvm⟩ := h
      have hvr : v ∈ rest := by
        rcases List.mem_cons.mp hv with rfl | hvr
        · exact absurd hvm ha
        · exact hvr
      obtain ⟨pre, w, post, hsplit, hw, hpre⟩ := ih ⟨v, hvr, hvm⟩
      refine ⟨a :: pre, w, post, by simp [hsplit], hw, ?_⟩
      intro x hx
      rcases List.mem_cons.mp hx with rfl | hx'
      · exact ha
      · exact hpre x hx'

theorem scan_result (matchData : List Int) (vals : List Int) (calls : Nat) :
    (MatchAnyDicPrimFeatureImpl.scan matchData ⟨vals, calls⟩).1 =
      if ∃ v ∈ vals, v ∈ matchData then 1 else 0 := by
  unfold MatchAnyDicPrimFeatureImpl.scan
  by_cases h : ∃ v ∈ vals, v ∈ matchData
  · obtain ⟨pre, v, post, hsplit, hv, hpre⟩ := exists_first_match matchData vals h
    rw [if_pos h]
    subst hsplit
    rw [scanLoop_first_match matchData v post hv pre _ calls (by simp; omega) hpre]
  · rw [if_neg h]
    have hno : ∀ x ∈ vals, x ∉ matchData := fun x hx hm => h ⟨x, hx, hm⟩
    rw [scanLoop_no_match matchData vals _ calls (by simp) hno]

theorem applyTraced_eq (self : MatchAnyDicPrimFeatureImpl) (ctx : PrimitiveFeatureContext)
    (entryPtr : EntryPtr) (entry : List Int) (features : List Nat) (elem : Int)
    (fld : BuiltField) (he : entry[self.fieldIdx]? = some elem)
    (hf : ctx.fields[self.fieldIdx]? = some fld) (hi : self.featureIdx < features.length) :
    self.applyTraced ctx entryPtr entry features =
      some (features.set self.featureIdx
          (i32ToU64 (MatchAnyDicPrimFeatureImpl.scan self.matchData
            ⟨fld.postions.listAt elem, 0⟩).1),
        (MatchAnyDicPrimFeatureImpl.scan self.matchData ⟨fld.postions.listAt elem, 0⟩).2) := by
  simp [MatchAnyDicPrimFeatureImpl.applyTraced, PrimitiveFeatureContext.traversal, he, hf,
    assignAt, hi]

/-- C7: `MatchAnyDicPrimFeatureImpl::apply` writes 1 into slot `featureIdx` when at least one
value yielded by the traversal of the referenced column is in the constant set, and 0
otherwise (so 0 for an empty traversal). -/
theorem matchAnyDic_apply_value (self : MatchAnyDicPrimFeatureImpl)
    (ctx : PrimitiveFeatureContext) (entryPtr : EntryPtr) (entry : List Int)
    (features : List Nat) (elem : Int) (fld : BuiltField)
    (he : entry[self.fieldIdx]? = some elem) (hf : ctx.fields[self.fieldIdx]? = some fld)
    (hi : self.featureIdx < features.length) :
    self.apply ctx entryPtr entry features =
      some (features.set self.featureIdx
        (if ∃ v ∈ fld.postions.listAt elem, v ∈ self.matchData then 1 else 0)) := by
  unfold MatchAnyDicPrimFeatureImpl.apply
  rw [applyTraced_eq self ctx entryPtr entry features elem fld he hf hi, scan_result]
  by_cases h : ∃ v ∈ fld.postions.listAt elem, v ∈ self.matchData
  · simp only [if_pos h, Option.map_some']
    rfl
  · simp only [if_neg h, Option.map_some']
    rfl

theorem matchAnyDic_apply_value_witness :
    ([7, 4, 9] : List Int)[1]? = some 4 ∧
    ((exCtx.fields[1]?).map fun f => f.postions.listAt 4) = some [10, 3, 7] ∧
    (⟨1, 2, [3]⟩ : MatchAnyDicPrimFeatureImpl).apply exCtx (.entry 5) [7, 4, 9] [0, 0, 0, 0] =
      some [0, 0, 1, 0] ∧
    (⟨1, 2, [3]⟩ : MatchAnyDicPrimFeatureImpl).apply exCtx (.entry 5) [7, 0, 9] [5, 5, 5, 5] =
      some [5, 5, 0, 5] ∧
    (⟨1, 2, [3]⟩ : MatchAnyDicPrimFeatureImpl).apply exCtx (.entry 5) [7, 4, 9] [0, 0, 0, 0] =
      some (([0, 0, 0, 0] : List Nat).set 2
        (if ∃ v ∈ ([10, 3, 7] : List Int), v ∈ ([3] : List Int) then 1 else 0)) :=
  ⟨rfl, rfl, rfl, rfl,
    matchAnyDic_apply_value ⟨1, 2, [3]⟩ exCtx (.entry 5) [7, 4, 9] [0, 0, 0, 0] 4
      ⟨"tags", .StringList, ⟨fun _ => []⟩, ⟨fun p => if p = 4 then [10, 3, 7] else []⟩⟩
      rfl rfl (by decide)⟩


/-- C8: `MatchAnyDicPrimFeatureImpl::apply` short-circuits.  When the first value of the
traversal that belongs to the constant set is at position `k` (after the `k` values `pre`),
`apply` has called `next` exactly `k + 1` times and leaves the values after the match
unconsumed; when no value of a traversal of `n` values belongs to the set, it has called
`next` exactly `n + 1` times. -/
theorem matchAnyDic_short_circuit (self : MatchAnyDicPrimFeatureImpl)
    (ctx : PrimitiveFeatureContext) (entryPtr : EntryPtr) (entry : List Int)
    (features : List Nat) (elem : Int) (fld : BuiltField)
    (he : entry[self.fieldIdx]? = some elem) (hf : ctx.fields[self.fieldIdx]? = some fld)
    (hi : self.featureIdx < features.length) :
    (∀ pre v post, fld.postions.listAt elem = pre ++ v :: post → v ∈ self.matchData →
      (∀ x ∈ pre, x ∉ self.matchData) →
      ∃ features', self.applyTraced ctx entryPtr entry features =
        some (features', ⟨post, pre.length + 1⟩)) ∧
    ((∀ x ∈ fld.postions.listAt elem, x ∉ self.matchData) →
      ∃ features', self.applyTraced ctx entryPtr entry features =
        some (features', ⟨[], (fld.postions.listAt elem).length + 1⟩)) := by
  rw [applyTraced_eq self ctx entryPtr entry features elem fld he hf hi]
  unfold MatchAnyDicPrimFeatureImpl.scan
  constructor
  · intro pre v post hsplit hv hpre
    rw [hsplit, scanLoop_first_match self.matchData v post hv pre _ 0 (by simp; omega) hpre]
    exact ⟨features.set self.featureIdx (i32ToU64 1), by simp⟩
  · intro hno
    rw [scanLoop_no_match self.matchData _ _ 0 (by simp) hno]
    exact ⟨features.set self.featureIdx (i32ToU64 0), by simp⟩

theorem matchAnyDic_short_circuit_witness :
    (⟨1, 2, [3]⟩ : MatchAnyDicPrimFeatureImpl).applyTraced exCtx (.entry 5) [7, 4, 9]
      [0, 0, 0, 0] = some ([0, 0, 1, 0], ⟨[7], 2⟩) ∧
    (⟨1, 2, [8]⟩ : MatchAnyDicPrimFeatureImpl).applyTraced exCtx (.entry 5) [7, 4, 9]
      [0, 0, 0, 0] = some ([0, 0, 0, 0], ⟨[], 4⟩) ∧
    (∃ features', (⟨1, 2, [3]⟩ : MatchAnyDicPrimFeatureImpl).applyTraced exCtx (.entry 5)
      [7, 4, 9] [0, 0, 0, 0] = some (features', ⟨[7], [10].length + 1⟩)) ∧
    (∃ features', (⟨1, 2, [8]⟩ : MatchAnyDicPrimFeatureImpl).applyTraced exCtx (.entry 5)
      [7, 4, 9] [0, 0, 0, 0] = some (features', ⟨[], [10, 3, 7].length + 1⟩)) :=
  ⟨rfl, rfl,
    (matchAnyDic_short_circuit ⟨1, 2, [3]⟩ exCtx (.entry 5) [7, 4, 9] [0, 0, 0, 0] 4
      ⟨"tags", .StringList, ⟨fun _ => []⟩, ⟨fun p => if p = 4 then [10, 3, 7] else []⟩⟩
      rfl rfl (by decide)).1 [10] 3 [7] rfl (by decide) (by decide),
    (matchAnyDic_short_circuit ⟨1, 2, [8]⟩ exCtx (.entry 5) [7, 4, 9] [0, 0, 0, 0] 4
      ⟨"tags", .StringList, ⟨fun _ => []⟩, ⟨fun p => if p = 4 then [10, 3, 7] else []⟩⟩
      rfl rfl (by decide)).2 (by decide)⟩

/-- C9: `MatchDicPrimFeatureImpl::apply`, with `fieldIdx` and `featureIdx` in range, writes 1
into slot `featureIdx` when `entry[fieldIdx]` is in the constant set and 0 otherwise. -/
theorem matchDic_apply_value (self : MatchDicPrimFeatureImpl) (ctx : PrimitiveFeatureContext)
    (entryPtr : EntryPtr) (entry : List Int) (features : List Nat) (elem : Int)
    (he : entry[self.fieldIdx]? = some elem) (hi : self.featureIdx < features.length) :
    self.apply ctx entryPtr entry features =
      some (features.set self.featureIdx (if elem ∈ self.matchData then 1 else 0)) := by
  by_cases h : elem ∈ self.matchData
  · simp only [MatchDicPrimFeatureImpl.apply, he, contains, h, decide_True, if_true, assignAt,
      hi]
    rfl
  · simp only [MatchDicPrimFeatureImpl.apply, he, contains, h, decide_False,
      Bool.false_eq_true, if_false, assignAt, hi, if_true]
    rfl

theorem matchDic_apply_value_witness :
    (⟨0, 1, [3, 4]⟩ : MatchDicPrimFeatureImpl).apply exCtx (.entry 5) [4] [7, 7] =
      some [7, 1] ∧
    (⟨0, 1, [3, 4]⟩ : MatchDicPrimFeatureImpl).apply exCtx (.entry 5) [9] [7, 7] =
      some [7, 0] ∧
    (⟨0, 1, [3, 4]⟩ : MatchDicPrimFeatureImpl).apply exCtx (.entry 5) [4] [7, 7] =
      some (([7, 7] : List Nat).set 1 (if (4 : Int) ∈ ([3, 4] : List Int) then 1 else 0)) :=
  ⟨rfl, rfl,
    matchDic_apply_value ⟨0, 1, [3, 4]⟩ exCtx (.entry 5) [4] [7, 7] 4 rfl (by decide)⟩

/-- C10: `CopyPrimFeatureImpl::apply`, with `fieldIdx` and `featureIdx` in range and
`entry[fieldIdx]` a signed 32-bit value `v`, stores `v mod 2^64` into slot `featureIdx`:
`v` itself when `v` is non-negative and `2^64 + v` when it is negative. -/
theorem copy_apply_value (self : CopyPrimFeatureImpl) (ctx : PrimitiveFeatureContext)
    (entryPtr : EntryPtr) (entry : List Int) (features : List Nat) (v : Int)
    (he : entry[self.fieldIdx]? = some v) (hlo : -2 ^ 31 ≤ v) (hhi : v < 2 ^ 31)
    (hi : self.featureIdx < features.length) :
    ∃ w : Nat, self.apply ctx entryPtr entry features = some (features.set self.featureIdx w) ∧
      (w : Int) = v % 2 ^ 64 ∧ (0 ≤ v → (w : Int) = v) ∧
      (v < 0 → (w : Int) = 2 ^ 64 + v) := by
  refine ⟨i32ToU64 v, ?_, ?_, ?_, ?_⟩
  · simp [CopyPrimFeatureImpl.apply, he, assignAt, hi]
  · unfold i32ToU64
    exact Int.toNat_of_nonneg (Int.emod_nonneg v (by norm_num))
  · intro h0
    unfold i32ToU64
    rw [Int.toNat_of_nonneg (Int.emod_nonneg v (by norm_num))]
    norm_num at hlo hhi ⊢
    omega
  · intro hneg
    unfold i32ToU64
    rw [Int.toNat_of_nonneg (Int.emod_nonneg v (by norm_num))]
    norm_num at hlo hhi ⊢
    omega

theorem copy_apply_value_witness :
    (⟨1, 0⟩ : CopyPrimFeatureImpl).apply exCtx (.entry 5) [7, 2, 9] [0] = some [2] ∧
    (⟨1, 0⟩ : CopyPrimFeatureImpl).apply exCtx (.entry 5) [7, -1, 9] [0] =
      some [18446744073709551615] ∧
    ∃ w : Nat, (⟨1, 0⟩ : CopyPrimFeatureImpl).apply exCtx (.entry 5) [7, 2, 9] [0] =
        some (([0] : List Nat).set 0 w) ∧
      (w : Int) = 2 % 2 ^ 64 ∧ ((0 : Int) ≤ 2 → (w : Int) = 2) ∧
      ((2 : Int) < 0 → (w : Int) = 2 ^ 64 + 2) :=
  ⟨rfl, rfl,
    copy_apply_value ⟨1, 0⟩ exCtx (.entry 5) [7, 2, 9] [0] 2 rfl (by decide) (by decide)
      (by decide)⟩


/-! ### Lengths, provided values and the length source -/

theorem i32ToU64_of_nonneg (v : Int) (h0 : 0 ≤ v) (h1 : v < 2 ^ 31) :
    ((i32ToU64 v : Nat) : Int) = v := by
  unfold i32ToU64
  rw [Int.toNat_of_nonneg (Int.emod_nonneg v (by norm_num))]
  norm_num at h1 ⊢
  omega

/-- C11: `PrimitiveFeatureContext::lengthOf` gives the extra-node length lookup for every
negative `fieldPtr`, whatever the source; for a non-negative `fieldPtr` it gives the string
storage's length with source `Strings` and the position-list storage's element count with
source `Positions`; and `LengthPrimFeatureImpl::apply` writes the value of `lengthOf` for
`entry[fieldIdx]` into slot `featureIdx` (as a `u64`, the length itself when it is not
negative). -/
theorem lengthOf_and_length_apply (ctx : PrimitiveFeatureContext)
    (self : LengthPrimFeatureImpl) (entryPtr : EntryPtr) (entry : List Int)
    (features : List Nat) (fldPtr length : Int)
    (he : entry[self.fieldIdx]? = some fldPtr)
    (hl : ctx.lengthOf self.fieldIdx fldPtr self.field = some length)
    (hi : self.featureIdx < features.length) :
    (∀ fieldNum fieldPtr source, fieldPtr < 0 →
      ctx.lengthOf fieldNum fieldPtr source = some (ctx.extraCtx.lengthOf fieldNum fieldPtr)) ∧
    (∀ fieldNum fieldPtr fld, 0 ≤ fieldPtr → ctx.fields[fieldNum]? = some fld →
      ctx.lengthOf fieldNum fieldPtr .Strings = some (fld.strings.lengthOf fieldPtr) ∧
      ctx.lengthOf fieldNum fieldPtr .Positions = some (fld.postions.lengthOf fieldPtr)) ∧
    self.apply ctx entryPtr entry features =
      some (features.set self.featureIdx (i32ToU64 length)) ∧
    (0 ≤ length → length < 2 ^ 31 → ((i32ToU64 length : Nat) : Int) = length) := by
  refine ⟨?_, ?_, ?_, i32ToU64_of_nonneg length⟩
  · intro fieldNum fieldPtr source hneg
    simp [PrimitiveFeatureContext.lengthOf, hneg]
  · intro fieldNum fieldPtr fld hpos hf
    have hn : ¬ fieldPtr < 0 := not_lt.mpr hpos
    simp [PrimitiveFeatureContext.lengthOf, hn, hf]
  · simp [LengthPrimFeatureImpl.apply, he, hl, assignAt, hi]

theorem lengthOf_and_length_apply_witness :
    (⟨0, 1, .Strings⟩ : LengthPrimFeatureImpl).apply exCtx (.entry 5) [6, 8] [9, 9] =
      some [9, 3] ∧
    (⟨1, 1, .Positions⟩ : LengthPrimFeatureImpl).apply exCtx (.entry 5) [6, 8] [9, 9] =
      some [9, 0] ∧
    (⟨1, 1, .Positions⟩ : LengthPrimFeatureImpl).apply exUnkCtx (.entry (-1)) [6, -1] [9, 9] =
      some [9, 2] ∧
    ((∀ fieldNum fieldPtr source, fieldPtr < 0 →
      exCtx.lengthOf fieldNum fieldPtr source =
        some (exCtx.extraCtx.lengthOf fieldNum fieldPtr)) ∧
    (∀ fieldNum fieldPtr fld, 0 ≤ fieldPtr → exCtx.fields[fieldNum]? = some fld →
      exCtx.lengthOf fieldNum fieldPtr .Strings = some (fld.strings.lengthOf fieldPtr) ∧
      exCtx.lengthOf fieldNum fieldPtr .Positions = some (fld.postions.lengthOf fieldPtr)) ∧
    (⟨0, 1, .Strings⟩ : LengthPrimFeatureImpl).apply exCtx (.entry 5) [6, 8] [9, 9] =
      some (([9, 9] : List Nat).set 1 (i32ToU64 3)) ∧
    ((0 : Int) ≤ 3 → (3 : Int) < 2 ^ 31 → ((i32ToU64 3 : Nat) : Int) = 3)) :=
  ⟨rfl, rfl, rfl,
    lengthOf_and_length_apply exCtx ⟨0, 1, .Strings⟩ (.entry 5) [6, 8] [9, 9] 6 3 rfl rfl
      (by decide)⟩

/-- C12: `PrimitiveFeatureContext::setLengthField` on an existing column succeeds exactly
when the column's type is `String` or `StringList`: it sets the source to `Positions` for
`StringList` and to `Strings` for `String`, and for every other type it fails with
`InvalidState` and leaves the caller's source as it was. -/
theorem setLengthField_result (ctx : PrimitiveFeatureContext) (fieldNum : Nat)
    (field : LengthFieldSource) (fld : BuiltField) (hf : ctx.fields[fieldNum]? = some fld) :
    ∃ st field', ctx.setLengthField fieldNum field = some (st, field') ∧
      (st = Status.Ok ↔
        fld.columnType = ColumnType.String ∨ fld.columnType = ColumnType.StringList) ∧
      (fld.columnType = ColumnType.StringList → field' = LengthFieldSource.Positions) ∧
      (fld.columnType = ColumnType.String → field' = LengthFieldSource.Strings) ∧
      (fld.columnType ≠ ColumnType.String → fld.columnType ≠ ColumnType.StringList →
        st = Status.InvalidState ∧ field' = field) := by
  unfold PrimitiveFeatureContext.setLengthField
  rw [hf]
  cases hc : fld.columnType with
  | String => exact ⟨.Ok, .Strings, by simp [hc]⟩
  | StringList => exact ⟨.Ok, .Positions, by simp [hc]⟩
  | Other => exact ⟨.InvalidState, field, by simp [hc]⟩

theorem setLengthField_result_witness :
    exCtx.setLengthField 0 .Invalid = some (.Ok, .Strings) ∧
    exCtx.setLengthField 1 .Invalid = some (.Ok, .Positions) ∧
    (⟨exCtx.extraCtx, [⟨"id", .Other, ⟨fun _ => []⟩, ⟨fun _ => []⟩⟩]⟩ :
      PrimitiveFeatureContext).setLengthField 0 .Strings = some (.InvalidState, .Strings) ∧
    ∃ st field', exCtx.setLengthField 1 .Invalid = some (st, field') ∧
      (st = Status.Ok ↔
        ColumnType.StringList = ColumnType.String ∨
          ColumnType.StringList = ColumnType.StringList) ∧
      (ColumnType.StringList = ColumnType.StringList →
        field' = LengthFieldSource.Positions) ∧
      (ColumnType.StringList = ColumnType.String → field' = LengthFieldSource.Strings) ∧
      (ColumnType.StringList ≠ ColumnType.String →
        ColumnType.StringList ≠ ColumnType.StringList →
        st = Status.InvalidState ∧ field' = LengthFieldSource.Invalid) :=
  ⟨rfl, rfl, rfl,
    setLengthField_result exCtx 1 .Invalid
      ⟨"tags", .StringList, ⟨fun _ => []⟩, ⟨fun p => if p = 4 then [10, 3, 7] else []⟩⟩
      rfl⟩

/-- C13: `PrimitiveFeatureContext::providedFeature` gives the node's `providedValues[index]`
when `entryPtr` resolves to an extra node of type `Unknown`, and 0 when there is no node for
`entryPtr` or the node has another type; `ProvidedPrimFeatureImpl::apply` writes that value
for `providedIdx` into slot `featureIdx` (as a `u64`), hence 0 for an entry without extra
node. -/
theorem providedFeature_and_provided_apply (ctx : PrimitiveFeatureContext)
    (self : ProvidedPrimFeatureImpl) (entryPtr : EntryPtr) (entry : List Int)
    (features : List Nat) (hi : self.featureIdx < features.length) :
    (∀ index, ctx.extraCtx.node entryPtr = none →
      ctx.providedFeature entryPtr index = some 0) ∧
    (∀ index node, ctx.extraCtx.node entryPtr = some node →
      node.type ≠ ExtraNodeType.Unknown → ctx.providedFeature entryPtr index = some 0) ∧
    (∀ index node v, ctx.extraCtx.node entryPtr = some node →
      node.type = ExtraNodeType.Unknown → node.providedValues[index]? = some v →
      ctx.providedFeature entryPtr index = some v) ∧
    (∀ v, ctx.providedFeature entryPtr self.providedIdx = some v →
      self.apply ctx entryPtr entry features =
        some (features.set self.featureIdx (i32ToU64 v))) ∧
    (ctx.extraCtx.node entryPtr = none →
      self.apply ctx entryPtr entry features = some (features.set self.featureIdx 0)) := by
  refine ⟨?_, ?_, ?_, ?_, ?_⟩
  · intro index hn
    simp [PrimitiveFeatureContext.providedFeature, hn]
  · intro index node hn ht
    simp [PrimitiveFeatureContext.providedFeature, hn, ht]
  · intro index node v hn ht hv
    simp [PrimitiveFeatureContext.providedFeature, hn, ht, hv]
  · intro v hv
    simp [ProvidedPrimFeatureImpl.apply, hv, assignAt, hi]
  · intro hn
    simp only [ProvidedPrimFeatureImpl.apply, PrimitiveFeatureContext.providedFeature, hn,
      assignAt, hi, if_true]
    rfl

theorem providedFeature_and_provided_apply_witness :
    exUnkCtx.providedFeature (.entry (-1)) 1 = some 22 ∧
    exUnkCtx.providedFeature (.entry (-2)) 1 = some 0 ∧
    exUnkCtx.providedFeature (.entry 7) 1 = some 0 ∧
    (⟨1, 0⟩ : ProvidedPrimFeatureImpl).apply exUnkCtx (.entry (-1)) [6] [9, 9] =
      some [22, 9] ∧
    (⟨1, 0⟩ : ProvidedPrimFeatureImpl).apply exUnkCtx (.entry 7) [6] [9, 9] = some [0, 9] ∧
    (∀ v, exUnkCtx.providedFeature (.entry (-1)) 1 = some v →
      (⟨1, 0⟩ : ProvidedPrimFeatureImpl).apply exUnkCtx (.entry (-1)) [6] [9, 9] =
        some (([9, 9] : List Nat).set 0 (i32ToU64 v))) :=
  ⟨rfl, rfl, rfl, rfl, rfl,
    (providedFeature_and_provided_apply exUnkCtx ⟨1, 0⟩ (.entry (-1)) [6] [9, 9]
      (by decide)).2.2.2.1⟩


/-! ### Totality and the frame of `apply` -/

theorem assignAt_eq_some (features out : List Nat) (i v : Nat) :
    assignAt features i v = some out ↔ i < features.length ∧ out = features.set i v := by
  unfold assignAt
  by_cases h : i < features.length
  · simp [h, eq_comm]
  · simp [h]

theorem apply_eq_bind_assignAt (self : PrimitiveFeatureImpl) (ctx : PrimitiveFeatureContext)
    (entryPtr : EntryPtr) (entry : List Int) :
    ∃ w : Option Nat, ∀ features : List Nat,
      self.apply ctx entryPtr entry features =
        w.bind (assignAt features self.featureIdx) := by
  cases self with
  | copy impl =>
    refine ⟨(entry[impl.fieldIdx]?).map i32ToU64, fun features => ?_⟩
    simp only [PrimitiveFeatureImpl.apply, PrimitiveFeatureImpl.featureIdx,
      CopyPrimFeatureImpl.apply]
    cases entry[impl.fieldIdx]? <;> rfl
  | provided impl =>
    refine ⟨(ctx.providedFeature entryPtr impl.providedIdx).map i32ToU64, fun features => ?_⟩
    simp only [PrimitiveFeatureImpl.apply, PrimitiveFeatureImpl.featureIdx,
      ProvidedPrimFeatureImpl.apply]
    cases ctx.providedFeature entryPtr impl.providedIdx <;> rfl
  | length impl =>
    refine ⟨(entry[impl.fieldIdx]?).bind fun fldPtr =>
      (ctx.lengthOf impl.fieldIdx fldPtr impl.field).map i32ToU64, fun features => ?_⟩
    simp only [PrimitiveFeatureImpl.apply, PrimitiveFeatureImpl.featureIdx,
      LengthPrimFeatureImpl.apply]
    cases entry[impl.fieldIdx]? with
    | none => rfl
    | some fldPtr =>
      simp only [Option.some_bind]
      cases ctx.lengthOf impl.fieldIdx fldPtr impl.field <;> rfl
  | matchDic impl =>
    refine ⟨(entry[impl.fieldIdx]?).map fun elem =>
      i32ToU64 (if contains impl.matchData elem then 1 else 0), fun features => ?_⟩
    simp only [PrimitiveFeatureImpl.apply, PrimitiveFeatureImpl.featureIdx,
      MatchDicPrimFeatureImpl.apply]
    cases entry[impl.fieldIdx]? <;> rfl
  | matchAnyDic impl =>
    refine ⟨(entry[impl.fieldIdx]?).bind fun elem =>
      (ctx.traversal impl.fieldIdx elem).map fun trav =>
        i32ToU64 (MatchAnyDicPrimFeatureImpl.scan impl.matchData trav).1,
      fun features => ?_⟩
    simp only [PrimitiveFeatureImpl.apply, PrimitiveFeatureImpl.featureIdx,
      MatchAnyDicPrimFeatureImpl.apply, MatchAnyDicPrimFeatureImpl.applyTraced]
    cases entry[impl.fieldIdx]? with
    | none => rfl
    | some elem =>
      simp only [Option.some_bind]
      cases ctx.traversal impl.fieldIdx elem with
      | none => rfl
      | some trav =>
        simp only [Option.map_some', Option.some_bind]
        cases assignAt features impl.featureIdx
          (i32ToU64 (MatchAnyDicPrimFeatureImpl.scan impl.matchData trav).1) <;> rfl

theorem assignAt_comm (features : List Nat) (i j a b : Nat) (hij : i ≠ j) :
    (assignAt features i a).bind (fun out => assignAt out j b) =
      (assignAt features j b).bind (fun out => assignAt out i a) := by
  unfold assignAt
  by_cases hi : i < features.length <;> by_cases hj : j < features.length <;>
    simp [hi, hj, List.set_comm a b features hij]


/-- C14, as stated, fails: `CopyPrimFeatureImpl::apply` with `fieldIdx` 0 on an empty entry
row reads out of range, `ProvidedPrimFeatureImpl::apply` with `providedIdx` 5 on an `Unknown`
node with three provided values reads out of range, and `apply` with `featureIdx` 3 on a
vector of two slots writes out of range; none of the calls has a result. -/
theorem apply_total_counterexample :
    (PrimitiveFeatureImpl.copy ⟨0, 0⟩).apply exCtx (.entry 5) [] [9, 9] = none ∧
    (PrimitiveFeatureImpl.provided ⟨5, 0⟩).apply exUnkCtx (.entry (-1)) [6] [9, 9] = none ∧
    (PrimitiveFeatureImpl.matchDic ⟨0, 3, [3, 4]⟩).apply exCtx (.entry 5) [4] [9, 9] = none :=
  ⟨rfl, rfl, rfl⟩

/-- C14, amended: `apply` of every feature variant (Copy, Provided, Length, MatchDic,
MatchAnyDic) completes with a written slot `featureIdx` exactly when every index access it
performs is in range: `featureIdx` in the output vector, `fieldIdx` in the entry row (all but
Provided), `fieldIdx` in the columns of the context (MatchAnyDic, and Length for a
non-negative field pointer), and `providedIdx` in the provided values of an `Unknown` extra
node (Provided). -/
theorem apply_total_iff (self : PrimitiveFeatureImpl) (ctx : PrimitiveFeatureContext)
    (entryPtr : EntryPtr) (entry : List Int) (features : List Nat) :
    self.InRange ctx entryPtr entry features ↔
      ∃ w, self.apply ctx entryPtr entry features = some (features.set self.featureIdx w) := by
  cases self with
  | copy impl =>
    simp only [PrimitiveFeatureImpl.InRange, PrimitiveFeatureImpl.apply,
      PrimitiveFeatureImpl.featureIdx, CopyPrimFeatureImpl.apply]
    constructor
    · rintro ⟨hi, hf⟩
      obtain ⟨v, hv⟩ := exists_getElem?_of_lt entry impl.fieldIdx hf
      exact ⟨i32ToU64 v, by simp [hv, assignAt, hi]⟩
    · rintro ⟨w, h⟩
      cases he : entry[impl.fieldIdx]? with
      | none => simp [he] at h
      | some v =>
        simp only [he] at h
        exact ⟨((assignAt_eq_some _ _ _ _).mp h).1, lt_length_of_getElem?_eq_some _ _ _ he⟩
  | provided impl =>
    simp only [PrimitiveFeatureImpl.InRange, PrimitiveFeatureImpl.apply,
      PrimitiveFeatureImpl.featureIdx, ProvidedPrimFeatureImpl.apply,
      PrimitiveFeatureContext.providedFeature]
    constructor
    · rintro ⟨hi, hp⟩
      cases hn : ctx.extraCtx.node entryPtr with
      | none => exact ⟨i32ToU64 0, by simp [assignAt, hi]⟩
      | some node =>
        by_cases ht : node.type = ExtraNodeType.Unknown
        · obtain ⟨v, hv⟩ := exists_getElem?_of_lt _ _ (hp node hn ht)
          exact ⟨i32ToU64 v, by simp [ht, hv, assignAt, hi]⟩
        · exact ⟨i32ToU64 0, by simp [ht, assignAt, hi]⟩
    · rintro ⟨w, h⟩
      cases hn : ctx.extraCtx.node entryPtr with
      | none =>
        simp only [hn] at h
        exact ⟨((assignAt_eq_some _ _ _ _).mp h).1, fun node hnode => by simp at hnode⟩
      | some node =>
        simp only [hn] at h
        by_cases ht : node.type = ExtraNodeType.Unknown
        · simp only [ht, ne_eq, not_true_eq_false, if_false] at h
          cases hv : node.providedValues[impl.providedIdx]? with
          | none => simp [hv] at h
          | some v =>
            simp only [hv] at h
            refine ⟨((assignAt_eq_some _ _ _ _).mp h).1, fun node' hnode' _ => ?_⟩
            cases (Option.some.inj hnode')
            exact lt_length_of_getElem?_eq_some _ _ _ hv
        · simp only [ne_eq, ht, not_false_eq_true, if_true] at h
          refine ⟨((assignAt_eq_some _ _ _ _).mp h).1, fun node' hnode' ht' => ?_⟩
          cases (Option.some.inj hnode')
          exact absurd ht' ht
  | length impl =>
    simp only [PrimitiveFeatureImpl.InRange, PrimitiveFeatureImpl.apply,
      PrimitiveFeatureImpl.featureIdx, LengthPrimFeatureImpl.apply,
      PrimitiveFeatureContext.lengthOf]
    constructor
    · rintro ⟨hi, hf, hc⟩
      obtain ⟨fldPtr, he⟩ := exists_getElem?_of_lt entry impl.fieldIdx hf
      by_cases hneg : fldPtr < 0
      · exact ⟨i32ToU64 (ctx.extraCtx.lengthOf impl.fieldIdx fldPtr),
          by simp [he, hneg, assignAt, hi]⟩
      · obtain ⟨fld, hfld⟩ := exists_getElem?_of_lt ctx.fields impl.fieldIdx
          (hc fldPtr he (not_lt.mp hneg))
        cases hsrc : impl.field with
        | Invalid =>
          exact ⟨i32ToU64 (-1), by simp [he, hneg, hfld, hsrc, assignAt, hi]⟩
        | Strings =>
          exact ⟨i32ToU64 (fld.strings.lengthOf fldPtr),
            by simp [he, hneg, hfld, hsrc, assignAt, hi]⟩
        | Positions =>
          exact ⟨i32ToU64 (fld.postions.lengthOf fldPtr),
            by simp [he, hneg, hfld, hsrc, assignAt, hi]⟩
    · rintro ⟨w, h⟩
      cases he : entry[impl.fieldIdx]? with
      | none => simp [he] at h
      | some fldPtr =>
        simp only [he] at h
        have hf := lt_length_of_getElem?_eq_some _ _ _ he
        by_cases hneg : fldPtr < 0
        · simp only [hneg, if_true] at h
          refine ⟨((assignAt_eq_some _ _ _ _).mp h).1, hf, fun p hp h0 => ?_⟩
          cases (Option.some.inj hp)
          omega
        · simp only [hneg, if_false] at h
          cases hfld : ctx.fields[impl.fieldIdx]? with
          | none => simp [hfld] at h
          | some fld =>
            simp only [hfld] at h
            have hc := lt_length_of_getElem?_eq_some _ _ _ hfld
            cases hsrc : impl.field <;> simp only [hsrc] at h <;>
              exact ⟨((assignAt_eq_some _ _ _ _).mp h).1, hf, fun _ _ _ => hc⟩
  | matchDic impl =>
    simp only [PrimitiveFeatureImpl.InRange, PrimitiveFeatureImpl.apply,
      PrimitiveFeatureImpl.featureIdx, MatchDicPrimFeatureImpl.apply]
    constructor
    · rintro ⟨hi, hf⟩
      obtain ⟨v, hv⟩ := exists_getElem?_of_lt entry impl.fieldIdx hf
      exact ⟨i32ToU64 (if contains impl.matchData v then 1 else 0),
        by simp [hv, assignAt, hi]⟩
    · rintro ⟨w, h⟩
      cases he : entry[impl.fieldIdx]? with
      | none => simp [he] at h
      | some v =>
        simp only [he] at h
        exact ⟨((assignAt_eq_some _ _ _ _).mp h).1, lt_length_of_getElem?_eq_some _ _ _ he⟩
  | matchAnyDic impl =>
    simp only [PrimitiveFeatureImpl.InRange, PrimitiveFeatureImpl.apply,
      PrimitiveFeatureImpl.featureIdx, MatchAnyDicPrimFeatureImpl.apply,
      MatchAnyDicPrimFeatureImpl.applyTraced, PrimitiveFeatureContext.traversal]
    constructor
    · rintro ⟨hi, hf, hc⟩
      obtain ⟨v, hv⟩ := exists_getElem?_of_lt entry impl.fieldIdx hf
      obtain ⟨fld, hfld⟩ := exists_getElem?_of_lt ctx.fields impl.fieldIdx hc
      exact ⟨i32ToU64 (MatchAnyDicPrimFeatureImpl.scan impl.matchData
        ⟨fld.postions.listAt v, 0⟩).1, by simp [hv, hfld, assignAt, hi]⟩
    · rintro ⟨w, h⟩
      cases he : entry[impl.fieldIdx]? with
      | none => simp [he] at h
      | some v =>
        simp only [he] at h
        cases hfld : ctx.fields[impl.fieldIdx]? with
        | none => simp [hfld] at h
        | some fld =>
          simp only [hfld] at h
          cases ha : assignAt features impl.featureIdx (i32ToU64
              (MatchAnyDicPrimFeatureImpl.scan impl.matchData
                ⟨fld.postions.listAt v, 0⟩).1) with
          | none => simp [ha] at h
          | some out =>
            exact ⟨((assignAt_eq_some _ _ _ _).mp ha).1,
              lt_length_of_getElem?_eq_some _ _ _ he,
              lt_length_of_getElem?_eq_some _ _ _ hfld⟩


/-- C19: for each of the five feature variants, `apply` is the assignment of slot
`featureIdx` with a value that does not depend on the output vector; when it completes,
`featureIdx` is in range, the length of the vector is unchanged and every other slot holds
the value it held before; two calls on different vectors write the same value; and two
variants with different `featureIdx` give the same result in either order of application. -/
theorem apply_frame (self other : PrimitiveFeatureImpl) (ctx : PrimitiveFeatureContext)
    (entryPtr : EntryPtr) (entry : List Int) :
    (∃ w : Option Nat, ∀ features : List Nat,
      self.apply ctx entryPtr entry features =
        w.bind (assignAt features self.featureIdx)) ∧
    (∀ features out, self.apply ctx entryPtr entry features = some out →
      self.featureIdx < features.length ∧ out.length = features.length ∧
      ∀ j, j ≠ self.featureIdx → out[j]? = features[j]?) ∧
    (∀ features features' out out', self.apply ctx entryPtr entry features = some out →
      self.apply ctx entryPtr entry features' = some out' →
      out[self.featureIdx]? = out'[self.featureIdx]?) ∧
    (self.featureIdx ≠ other.featureIdx → ∀ features,
      (self.apply ctx entryPtr entry features).bind (other.apply ctx entryPtr entry) =
        (other.apply ctx entryPtr entry features).bind (self.apply ctx entryPtr entry)) := by
  obtain ⟨w, hw⟩ := apply_eq_bind_assignAt self ctx entryPtr entry
  obtain ⟨w', hw'⟩ := apply_eq_bind_assignAt other ctx entryPtr entry
  refine ⟨⟨w, hw⟩, ?_, ?_, ?_⟩
  · intro features out h
    rw [hw] at h
    cases w with
    | none => simp at h
    | some v =>
      obtain ⟨hi, rfl⟩ := (assignAt_eq_some _ _ _ _).mp h
      refine ⟨hi, by simp, fun j hj => ?_⟩
      simp [List.getElem?_set, Ne.symm hj]
  · intro features features' out out' h h'
    rw [hw] at h h'
    cases w with
    | none => simp at h
    | some v =>
      obtain ⟨hi, rfl⟩ := (assignAt_eq_some _ _ _ _).mp h
      obtain ⟨hi', rfl⟩ := (assignAt_eq_some _ _ _ _).mp h'
      simp [List.getElem?_set, hi, hi']
  · intro hne features
    have hcomm : ∀ fs : List Nat,
        (self.apply ctx entryPtr entry fs).bind (other.apply ctx entryPtr entry) =
          w.bind fun a => w'.bind fun b =>
            (assignAt fs self.featureIdx a).bind fun out =>
              assignAt out other.featureIdx b := by
      intro fs
      rw [hw]
      cases w with
      | none => rfl
      | some a =>
        simp only [Option.some_bind]
        cases w' with
        | none =>
          cases assignAt fs self.featureIdx a with
          | none => rfl
          | some out => simp [hw']
        | some b =>
          simp only [Option.some_bind]
          congr 1
          funext out
          rw [hw']
          rfl
    have hcomm' : ∀ fs : List Nat,
        (other.apply ctx entryPtr entry fs).bind (self.apply ctx entryPtr entry) =
          w.bind fun a => w'.bind fun b =>
            (assignAt fs other.featureIdx b).bind fun out =>
              assignAt out self.featureIdx a := by
      intro fs
      rw [hw']
      cases w' with
      | none =>
        cases w <;> rfl
      | some b =>
        simp only [Option.some_bind]
        cases w with
        | none =>
          cases assignAt fs other.featureIdx b with
          | none => rfl
          | some out => simp [hw]
        | some a =>
          simp only [Option.some_bind]
          congr 1
          funext out
          rw [hw]
          rfl
    rw [hcomm, hcomm']
    cases w with
    | none => rfl
    | some a =>
      cases w' with
      | none => rfl
      | some b =>
        simp only [Option.some_bind]
        exact assignAt_comm features _ _ a b hne


end jumanpp
